import Mathlib

/-!
Verification of the registry engine (hierarchical configuration-tree server).

The definitions below are a shallow embedding of the C registry engine:
keys, values, dirty marking, notifications, symlink resolution, the save
protocol and the request handlers.  Machine integers are modelled as `Nat`
or `Int`; fallible operations return `Except Status`; external collaborators
(file system, request transport, object-manager helpers that live outside
this code base) enter as explicit parameters of the functions that use them.
-/

namespace WineReg

set_option maxRecDepth 8000

/-! ## Constants

Flag and type constants, taken from the source (`KEY_*` flags, size limits)
and from the standard Windows headers the source includes
(`REG_NOTIFY_CHANGE_*`, `REG_LINK`, `KEY_QUERY_VALUE`, ...). -/

def REG_NOTIFY_CHANGE_NAME : Nat := 1
def REG_NOTIFY_CHANGE_LAST_SET : Nat := 4
def REG_LINK : Nat := 6
def KEY_QUERY_VALUE : Nat := 0x0001
def KEY_ENUMERATE_SUB_KEYS : Nat := 0x0008
/-- `OBJ_OPENLINK` attribute bit (winternl header). -/
def OBJ_OPENLINK : Nat := 0x100
def MAX_NAME_LEN : Nat := 256
def MAX_VALUE_LEN : Nat := 16383

/-- The mask `~REG_NOTIFY_CHANGE_LAST_SET` on a 32-bit `unsigned int`. -/
def NOT_LAST_SET_MASK : Nat := 0xFFFFFFFF ^^^ REG_NOTIFY_CHANGE_LAST_SET

/-- Status codes (the source's `STATUS_*` set relevant to the registry). -/
inductive Status where
  | success
  | objectNameNotFound
  | objectNameExists
  | objectNameInvalid
  | objectPathInvalid
  | objectPathSyntaxBad
  | objectNameCollision
  | invalidParameter
  | nameTooLong
  | childMustBeVolatile
  | accessDenied
  | keyDeleted
  | noMoreEntries
  deriving DecidableEq, Repr

/-! ## `save_branch`: the atomic save protocol

`save_branch( key, path )` first checks `key->flags & KEY_DIRTY`; a clean
branch is skipped (returns 1).  Otherwise it opens the destination with
`O_WRONLY` and `lstat`s it:

      if (!lstat( path, &st ) && (!S_ISREG(st.st_mode) || st.st_nlink > 1))
          { ftruncate( fd, 0 ); goto save; }   /* write in place */

so the branch is written *in place* when the destination is NOT a plain
regular file, or has more than one hard link, or is reached through a
symbolic link (`lstat` then reports the link itself, which is not regular).
In every other case (including open/lstat failure) a fresh
`reg<pid><counter>.tmp` file is created alongside and, after a successful
`fclose`, renamed over the destination; on failure the tempfile is unlinked.

The file-system observations (`open` success, `lstat` success, `S_ISREG`,
`st_nlink`) and the later I/O outcomes (`fdopen`, the write+`fclose`,
`rename`) are inputs of the model. -/

/-- Observations `save_branch` makes about the destination file:
whether `open(path, O_WRONLY)` succeeds, whether `lstat(path)` succeeds,
`S_ISREG(st.st_mode)`, and `st.st_nlink`.  A destination reached through a
symbolic link has `isReg = false` here, because `lstat` stats the link. -/
structure DestStat where
  openOk : Bool
  lstatOk : Bool
  isReg : Bool
  nlink : Nat
  deriving DecidableEq, Repr

/-- Which write path `save_branch` chose. -/
inductive SavePlan where
  | skip      -- branch not dirty, nothing written
  | inPlace   -- ftruncate + write through the opened descriptor
  | viaTemp   -- write to `reg<pid><counter>.tmp` in the same directory
  deriving DecidableEq, Repr

/-- Summary of one `save_branch` run. -/
structure SaveEffect where
  plan : SavePlan
  renamed : Bool   -- `rename( tmp, path )` was performed and succeeded
  unlinked : Bool  -- `unlink( tmp )` was performed
  ret : Bool       -- the C return value (true = success)
  deriving DecidableEq, Repr

/-- Shallow embedding of `save_branch` (the file-format serialization
`save_all_subkeys` is abstracted into the single outcome `closeOk`, which is
the C condition `!fclose(f)`; `fdopenOk`/`renameOk` are the outcomes of
`fdopen` and `rename`). -/
def save_branch (dirty : Bool) (st : DestStat) (fdopenOk closeOk renameOk : Bool) :
    SaveEffect :=
  if !dirty then
    { plan := .skip, renamed := false, unlinked := false, ret := true }
  else if st.openOk && (st.lstatOk && (!st.isReg || decide (st.nlink > 1))) then
    -- in-place path: `tmp` stays NULL, so no unlink can ever happen
    if !fdopenOk then { plan := .inPlace, renamed := false, unlinked := false, ret := false }
    else { plan := .inPlace, renamed := false, unlinked := false, ret := closeOk }
  else
    -- tempfile path: on `fdopen` failure the tempfile is unlinked at once;
    -- otherwise `ret = !fclose(f)`, then `if (ret) ret = !rename(tmp, path);
    -- if (!ret) unlink(tmp);`
    if !fdopenOk then { plan := .viaTemp, renamed := false, unlinked := true, ret := false }
    else if closeOk then
      if renameOk then { plan := .viaTemp, renamed := true, unlinked := false, ret := true }
      else { plan := .viaTemp, renamed := false, unlinked := true, ret := false }
    else { plan := .viaTemp, renamed := false, unlinked := true, ret := false }

/-! ## `open_key` handler: path-length check

The handler receives the requested name from the request decoder with its
length in BYTES (`unicode_str.len` counts bytes throughout the source; a wide
character is two bytes) and rejects long paths before resolving anything:

      if (name.len >= 65534) { set_error( STATUS_OBJECT_NAME_INVALID ); return; }

The key resolution that would follow (`open_named_object`, an object-manager
collaborator outside this code base) is abstracted as the `lookup` input. -/

/-- Shallow embedding of the `open_key` handler's entry: `nameBytes` is the
request's name length in bytes (always even, two per wide character);
`lookup` is the outcome of the subsequent `open_named_object` resolution. -/
def open_key_handler (nameBytes : Nat) (lookup : Except Status Nat) :
    Except Status Nat :=
  if 65534 ≤ nameBytes then .error .objectNameInvalid
  else lookup

/-! ## Symlink resolution loop (`key_lookup_name`)

After `find_subkey` locates a path element, `key_lookup_name` chases
`KEY_SYMLINK` keys unless the caller passed `OBJ_OPENLINK`:

      unsigned int iteration = 0;
      while (found->flags & KEY_SYMLINK) {
          if (!(target = follow_symlink( found, attr ))) break;
          ...
          if (iteration > 16) { ...; set_error( STATUS_NAME_TOO_LONG ); return NULL; }
          found = target;
          iteration++;
      }

Keys are represented by identifiers; `isLink k` is the test
`found->flags & KEY_SYMLINK`, and `follow k` is the outcome of
`follow_symlink` (which resolves the key's `SymbolicLinkValue` through the
object manager; `none` is a failed resolution, which `break`s out of the
loop and returns the symlink key itself). -/

/-- The loop body of symlink chasing, with the `iteration` counter explicit.
Returns `none` exactly when the loop aborts with `STATUS_NAME_TOO_LONG`. -/
def resolve_symlinks_from (isLink : Nat → Bool) (follow : Nat → Option Nat) :
    Nat → Nat → Option Nat
  | found, iteration =>
    if isLink found then
      match follow found with
      | none => some found
      | some target =>
        if 16 < iteration then none
        else resolve_symlinks_from isLink follow target (iteration + 1)
    else some found
  termination_by found iteration => 17 - iteration

/-- Symlink resolution as `key_lookup_name` performs it: skipped entirely
when the lookup attributes carry `OBJ_OPENLINK`. -/
def resolve_symlinks (attr : Nat) (isLink : Nat → Bool) (follow : Nat → Option Nat)
    (found : Nat) : Option Nat :=
  if attr &&& OBJ_OPENLINK ≠ 0 then some found
  else resolve_symlinks_from isLink follow found 0

/-- `k`-fold iteration of the symlink chain from a key: the key reached
after exactly `k` successful hops, if the chain goes that far with every
intermediate key being a symlink. -/
def chain_step (isLink : Nat → Bool) (follow : Nat → Option Nat) :
    Nat → Nat → Option Nat
  | 0, k => some k
  | n + 1, k =>
    if isLink k then
      match follow k with
      | none => none
      | some t => chain_step isLink follow n t
    else none

/-! ## Wide-character names and case-insensitive comparison

Names are lists of wide characters (one `Nat` per 16-bit unit).  The
source compares names with `memicmpW`, which lowercases both characters and
returns the first nonzero signed difference.  The full Unicode lowercase
table lives in an external library; ASCII folding is embedded here, which
is exact for every name constant the engine itself uses
(`SymbolicLinkValue`, `Wow6432Node`). -/

/-- Lowercasing of one wide character (ASCII range). -/
def wlower (c : Nat) : Nat := if 0x41 ≤ c ∧ c ≤ 0x5A then c + 0x20 else c

/-- `memicmpW( a, b, n )`: case-insensitive comparison of the first `n`
wide characters, as a signed difference.  The source only calls it with
`n` no larger than both lengths; reading past an end yields 0 here. -/
def memicmpW : List Nat → List Nat → Nat → Int
  | _, _, 0 => 0
  | x :: xs, y :: ys, n + 1 =>
    if wlower x ≠ wlower y then (wlower x : Int) - (wlower y : Int)
    else memicmpW xs ys n
  | _, _, _ + 1 => 0

/-- The comparison both `find_value` and `find_subkey` perform on an entry
name `en` against the searched name `n`:

      len = min( entry.namelen, name->len );
      res = memicmpW( entry.name, name->str, len / sizeof(WCHAR) );
      if (!res) res = entry.namelen - name->len;

(lengths in the source are byte counts, twice the character counts; only
the sign matters and it is unchanged by the factor two). -/
def name_cmp (en n : List Nat) : Int :=
  let r := memicmpW en n (min en.length n.length)
  if r ≠ 0 then r else (2 * en.length : Int) - (2 * n.length : Int)

/-- The case-insensitive normal form of a name: two names are "the same
name" to the engine exactly when their normal forms are equal. -/
def wnorm (n : List Nat) : List Nat := n.map wlower

/-- The name `SymbolicLinkValue` (the source's `symlink_str`). -/
def symlink_str : List Nat :=
  [0x53, 0x79, 0x6D, 0x62, 0x6F, 0x6C, 0x69, 0x63, 0x4C, 0x69, 0x6E, 0x6B,
   0x56, 0x61, 0x6C, 0x75, 0x65]

/-! ## The key tree

`struct key_value`: name, type and byte payload.  In the source the payload
pointer is `NULL` exactly when `len == 0` (`set_value` stores
`ptr = len ? memdup(...) : NULL`, `load_value` does `if (!len) newptr = NULL`),
so a value's `data` is modelled as its byte list and the C null test
`value->data` becomes `data ≠ []`. -/

structure KeyValue where
  name : List Nat   -- value name, wide characters (empty = default value)
  vtype : Nat       -- type tag
  data : List Nat   -- payload bytes; `[]` corresponds to a NULL data pointer
  deriving DecidableEq, Repr

/-- `struct notify`: one subscription.  `event = true` models a non-NULL
(armed) event pointer; `do_notification` signals the event and sets the
pointer to NULL, modelled as `event := false`. -/
structure Notify where
  event : Bool
  subtree : Bool
  filter : Nat
  hkey : Nat
  pid : Nat
  deriving DecidableEq, Repr

/-- The `KEY_*` flag bits of `struct key`, one field per bit. -/
structure KFlags where
  vol : Bool       -- KEY_VOLATILE 0x0001
  deleted : Bool   -- KEY_DELETED  0x0002
  dirty : Bool     -- KEY_DIRTY    0x0004
  symlink : Bool   -- KEY_SYMLINK  0x0008
  wow64 : Bool     -- KEY_WOW64    0x0010
  wowshare : Bool  -- KEY_WOWSHARE 0x0020
  deriving DecidableEq, Repr

/-- `struct key`: a node of the registry tree.  The parent back-pointer of
the source is represented by position: operations that climb the parent
chain take the path from the root to the key and process its prefixes. -/
inductive Key where
  | mk (name : List Nat) (flags : KFlags) (modif : Nat)
       (values : List KeyValue) (notifies : List Notify) (subkeys : List Key)

def Key.name : Key → List Nat | .mk n _ _ _ _ _ => n
def Key.flags : Key → KFlags | .mk _ f _ _ _ _ => f
def Key.modif : Key → Nat | .mk _ _ m _ _ _ => m
def Key.values : Key → List KeyValue | .mk _ _ _ v _ _ => v
def Key.notifies : Key → List Notify | .mk _ _ _ _ nt _ => nt
def Key.subkeys : Key → List Key | .mk _ _ _ _ _ s => s

/-- Rebuild a key from its fields. -/
def Key.withParts (k : Key) (f : KFlags) (m : Nat) (v : List KeyValue)
    (nt : List Notify) (s : List Key) : Key :=
  .mk k.name f m v nt s

/-- `key->last_subkey`, which is `-1` on a childless key. -/
def Key.last_subkey (k : Key) : Int := (k.subkeys.length : Int) - 1

/-- The subtree at a child-index path (`[]` is the key itself). -/
def nodeAt : Key → List Nat → Option Key
  | k, [] => some k
  | k, i :: p =>
    match k.subkeys.get? i with
    | none => none
    | some c => nodeAt c p

/-- Replace the subtree at a child-index path. -/
def setNode : Key → List Nat → Key → Key
  | _, [], r => r
  | k, i :: p, r =>
    match k.subkeys.get? i with
    | none => k
    | some c => .mk k.name k.flags k.modif k.values k.notifies
        (k.subkeys.set i (setNode c p r))

/-! ## `find_value` / `find_subkey`: binary search over sorted names

Both functions run the same binary search over a sorted array, comparing
with `name_cmp`; they are embedded as one search over the list of entry
names.  `lo`/`hi` are the C `min`/`max` (note `max` starts at
`last_value`/`last_subkey`, which is `-1` on an empty array). -/

/-- One entry name, by index, with an out-of-range default (the C never
indexes out of range while `0 ≤ lo ≤ i ≤ hi ≤ last`). -/
def nameAt (names : List (List Nat)) (i : Nat) : List Nat := (names.get? i).getD []

/-- The binary-search loop.  Returns `(some i, i)` when entry `i` compares
equal to `n`, `(none, ins)` with the insertion index otherwise. -/
def bsearch_name (names : List (List Nat)) (n : List Nat) (lo : Nat) (hi : Int) :
    Option Nat × Nat :=
  if h : (lo : Int) ≤ hi then
    let i : Nat := (((lo : Int) + hi) / 2).toNat
    let res := name_cmp (nameAt names i) n
    if res = 0 then (some i, i)
    else if 0 < res then bsearch_name names n lo (i - 1)
    else bsearch_name names n (i + 1) hi
  else (none, lo)
  termination_by (hi + 1 - lo).toNat
  decreasing_by
  · omega
  · omega

/-- `find_value( key, name, &index )`: the found value and the index the
insertion point would use. -/
def find_value (values : List KeyValue) (n : List Nat) : Option KeyValue × Nat :=
  let r := bsearch_name (values.map KeyValue.name) n 0 ((values.length : Int) - 1)
  (r.1.bind (fun i => values.get? i), r.2)

/-- The sortedness invariant of the engine's name arrays: strictly
ascending under `name_cmp` (unique by case-insensitive name). -/
def namesSorted (ns : List (List Nat)) : Prop :=
  ns.Pairwise fun a b => name_cmp a b < 0

/-- A key's value array is sorted by value name. -/
def valuesSorted (vals : List KeyValue) : Prop :=
  namesSorted (vals.map KeyValue.name)

/-- A key's subkey array is sorted by subkey name. -/
def subkeysSorted (s : List Key) : Prop :=
  namesSorted (s.map Key.name)

instance (ns : List (List Nat)) : Decidable (namesSorted ns) := by
  unfold namesSorted; infer_instance

instance (vals : List KeyValue) : Decidable (valuesSorted vals) := by
  unfold valuesSorted; infer_instance

instance (s : List Key) : Decidable (subkeysSorted s) := by
  unfold subkeysSorted; infer_instance

/-- `find_subkey( key, name, namelen, &index )`: same binary search over the
subkey names. -/
def find_subkey (subkeys : List Key) (n : List Nat) : Option Nat × Nat :=
  bsearch_name (subkeys.map Key.name) n 0 ((subkeys.length : Int) - 1)

/-! ## Notifications (`do_notification`, `check_notify`, `touch_key`)

`do_notification` with `del = 0` signals the armed event and clears the
event pointer; `check_notify` runs it over a key's notification list:

      if ( ( not_subtree || n->subtree ) && ( change & n->filter ) )
          do_notification( key, n, 0 );

`touch_key( key, change )` then updates `key->modif`, runs `make_dirty`,
fires `check_notify( key, change, 1 )` on the key itself, and climbs the
parent chain with `check_notify( k, change & ~REG_NOTIFY_CHANGE_LAST_SET, 0 )`.
In the path-indexed embedding the three phases walk the same root-to-key
path; they touch disjoint node fields, so the composition below produces
the same tree as the source's sequencing. -/

/-- `check_notify( key, change, not_subtree )` on a notification list. -/
def check_notify_list (l : List Notify) (change : Nat) (notSubtree : Bool) :
    List Notify :=
  l.map fun n =>
    if (notSubtree || n.subtree) && decide (change &&& n.filter ≠ 0) then
      { n with event := false }
    else n

/-- One step of `make_dirty`'s climb at one key:
`if (key->flags & (KEY_DIRTY|KEY_VOLATILE)) return;  key->flags |= KEY_DIRTY;`.
The boolean is true when the climb continues to the parent. -/
def make_dirty_step (f : KFlags) : KFlags × Bool :=
  if f.dirty || f.vol then (f, false) else ({ f with dirty := true }, true)

/-- `make_dirty( key )` for the key at the given path: the climb from the
key toward the root, stopping at the first already-dirty or volatile key.
Computed bottom-up along the path; the boolean reports whether the climb is
still running when it leaves the subtree. -/
def make_dirty_at : Key → List Nat → Key × Bool
  | k, [] =>
    let s := make_dirty_step k.flags
    (.mk k.name s.1 k.modif k.values k.notifies k.subkeys, s.2)
  | k, i :: p =>
    match k.subkeys.get? i with
    | none => (k, false)
    | some c =>
      let r := make_dirty_at c p
      let subs := k.subkeys.set i r.1
      if r.2 then
        let s := make_dirty_step k.flags
        (.mk k.name s.1 k.modif k.values k.notifies subs, s.2)
      else (.mk k.name k.flags k.modif k.values k.notifies subs, false)

/-- `key->modif = current_time` on the key at the given path. -/
def set_modif_at : Key → List Nat → Nat → Key
  | k, [], now => .mk k.name k.flags now k.values k.notifies k.subkeys
  | k, i :: p, now =>
    match k.subkeys.get? i with
    | none => k
    | some c =>
      .mk k.name k.flags k.modif k.values k.notifies
        (k.subkeys.set i (set_modif_at c p now))

/-- The notification walk of `touch_key`: `check_notify( key, change, 1 )`
at the key itself, then `check_notify( k, change & ~REG_NOTIFY_CHANGE_LAST_SET, 0 )`
at every proper ancestor. -/
def notify_walk : Key → List Nat → Nat → Key
  | k, [], change =>
    .mk k.name k.flags k.modif k.values (check_notify_list k.notifies change true)
      k.subkeys
  | k, i :: p, change =>
    match k.subkeys.get? i with
    | none => k
    | some c =>
      .mk k.name k.flags k.modif k.values
        (check_notify_list k.notifies (change &&& NOT_LAST_SET_MASK) false)
        (k.subkeys.set i (notify_walk c p change))

/-- `touch_key( key, change )` for the key at the given path of the tree. -/
def touch_key_at (t : Key) (p : List Nat) (change now : Nat) : Key :=
  notify_walk (make_dirty_at (set_modif_at t p now) p).1 p change

/-- The notification list of the key at a path. -/
def notifAt (t : Key) (q : List Nat) : Option (List Notify) :=
  (nodeAt t q).map Key.notifies

/-! ## `make_clean` and the dirty/volatile projection

`make_clean( key )` clears `KEY_DIRTY` on a whole subtree, pruning at
volatile keys and at keys that are already clean:

      if (key->flags & KEY_VOLATILE) return;
      if (!(key->flags & KEY_DIRTY)) return;
      key->flags &= ~KEY_DIRTY;
      for (i = 0; i <= key->last_subkey; i++) make_clean( key->subkeys[i] );

The dirty-propagation invariant concerns only the `KEY_DIRTY`/`KEY_VOLATILE`
bits and the tree shape, so those are split off as the projection `DTree`;
the tree operations above are proved to commute with the projection. -/

mutual

/-- `make_clean` on a key. -/
def makeClean : Key → Key
  | .mk n f m v nt s =>
    if f.vol then .mk n f m v nt s
    else if !f.dirty then .mk n f m v nt s
    else .mk n { f with dirty := false } m v nt (makeCleanL s)

/-- `make_clean` mapped over a subkey array. -/
def makeCleanL : List Key → List Key
  | [] => []
  | k :: ks => makeClean k :: makeCleanL ks

end

/-- `make_clean` applied to the subtree at a path (`save_branch` runs it on
a save-branch key after a successful write). -/
def make_clean_at : Key → List Nat → Key
  | t, [] => makeClean t
  | t, i :: p =>
    match t.subkeys.get? i with
    | none => t
    | some c =>
      .mk t.name t.flags t.modif t.values t.notifies
        (t.subkeys.set i (make_clean_at c p))

/-- The dirty/volatile projection of a key tree: per node, the
`KEY_DIRTY` and `KEY_VOLATILE` bits. -/
inductive DTree where
  | node (dirty vol : Bool) (cs : List DTree)

def DTree.dirty : DTree → Bool | .node d _ _ => d
def DTree.vol : DTree → Bool | .node _ v _ => v
def DTree.cs : DTree → List DTree | .node _ _ c => c

mutual

def dproj : Key → DTree
  | .mk _ f _ _ _ s => .node f.dirty f.vol (dprojL s)

def dprojL : List Key → List DTree
  | [] => []
  | k :: ks => dproj k :: dprojL ks

end

/-- `make_dirty_step` on the projection. -/
def dstep (d v : Bool) : Bool × Bool :=
  if d || v then (d, false) else (true, true)

/-- `make_dirty` on the projection. -/
def mdirty : DTree → List Nat → DTree × Bool
  | t, [] =>
    let s := dstep t.dirty t.vol
    (.node s.1 t.vol t.cs, s.2)
  | t, i :: p =>
    match t.cs.get? i with
    | none => (t, false)
    | some c =>
      let r := mdirty c p
      let cs' := t.cs.set i r.1
      if r.2 then
        let s := dstep t.dirty t.vol
        (.node s.1 t.vol cs', s.2)
      else (.node t.dirty t.vol cs', false)

mutual

/-- `make_clean` on the projection. -/
def mclean : DTree → DTree
  | .node d v cs =>
    if v then .node d v cs
    else if !d then .node d v cs
    else .node false v (mcleanL cs)

def mcleanL : List DTree → List DTree
  | [] => []
  | t :: ts => mclean t :: mcleanL ts

end

/-- `make_clean` at a path, on the projection. -/
def mclean_at : DTree → List Nat → DTree
  | t, [] => mclean t
  | t, i :: p =>
    match t.cs.get? i with
    | none => t
    | some c => .node t.dirty t.vol (t.cs.set i (mclean_at c p))

mutual

/-- Whether a subtree contains a dirty non-volatile key (itself included). -/
def hasDNV : DTree → Bool
  | .node d v cs => (d && !v) || hasDNVL cs

def hasDNVL : List DTree → Bool
  | [] => false
  | t :: ts => hasDNV t || hasDNVL ts

end

mutual

/-- The dirty-propagation invariant: at every node, if some child's subtree
contains a dirty non-volatile key then the node itself is dirty.
Equivalently: every ancestor of a dirty non-volatile key is dirty. -/
def dinv : DTree → Bool
  | .node d _ cs => (!hasDNVL cs || d) && dinvL cs

def dinvL : List DTree → Bool
  | [] => true
  | t :: ts => dinv t && dinvL ts

end

mutual

/-- Hereditary volatility: a volatile key has only volatile children (what
`create_key`'s `STATUS_CHILD_MUST_BE_VOLATILE` check enforces). -/
def vhered : DTree → Bool
  | .node _ v cs => vheredL v cs

def vheredL : Bool → List DTree → Bool
  | _, [] => true
  | v, c :: cs => (!v || c.vol) && vhered c && vheredL v cs

end

/-- The dirty-propagation invariant, on keys. -/
def dirtyInv (k : Key) : Bool := dinv (dproj k)

/-- Hereditary volatility, on keys. -/
def volHered (k : Key) : Bool := vhered (dproj k)

/-- The projected subtree at a child-index path. -/
def dnodeAt : DTree → List Nat → Option DTree
  | t, [] => some t
  | t, i :: p =>
    match t.cs.get? i with
    | none => none
    | some c => dnodeAt c p

/-! ## `set_value`

Transcription of `set_value( key, name, type, data, len )`, acting on the
key's own fields; the final `touch_key( key, REG_NOTIFY_CHANGE_LAST_SET )`
is the tree-level walk, applied by `set_value_at`. -/

/-- The identical-value skip test:

      if (value->type == type && value->len == len &&
          value->data && !memcmp( value->data, data, len )) ...

(the stored data pointer is NULL exactly when the stored length is 0, so
the `value->data` conjunct is `v.data ≠ []`). -/
def identical_value_present (values : List KeyValue) (n : List Nat) (ty : Nat)
    (d : List Nat) : Bool :=
  match (find_value values n).1 with
  | some v =>
    decide (v.vtype = ty) && decide (v.data.length = d.length) &&
      !v.data.isEmpty && decide (v.data = d)
  | none => false

/-- The write allowed on a symlink key: type `REG_LINK` and name
`SymbolicLinkValue` (case-insensitive, equal length — the source compares
byte lengths, twice the character counts). -/
def symlink_value_allowed (n : List Nat) (ty : Nat) : Bool :=
  decide (ty = REG_LINK) && decide (n.length = symlink_str.length) &&
    decide (memicmpW n symlink_str n.length = 0)

/-- `set_value` on the key itself: the updated key (value array only), the
resulting status, and whether `touch_key` is reached.  Allocation is
modelled as always succeeding. -/
def set_value_core (k : Key) (n : List Nat) (ty : Nat) (d : List Nat) :
    Key × Status × Bool :=
  let f := find_value k.values n
  if identical_value_present k.values n ty d then (k, .success, false)
  else if k.flags.symlink && !symlink_value_allowed n ty then
    (k, .accessDenied, false)
  else
    match f.1 with
    | some v =>
      -- existing value: free previous data, overwrite type/len/data in place
      (.mk k.name k.flags k.modif
         (k.values.set f.2 { v with vtype := ty, data := d }) k.notifies k.subkeys,
       .success, true)
    | none =>
      -- `insert_value`: name-length check, then insert at the search index
      if MAX_VALUE_LEN < n.length then (k, .nameTooLong, false)
      else
        (.mk k.name k.flags k.modif
           (k.values.insertIdx f.2 { name := n, vtype := ty, data := d })
           k.notifies k.subkeys,
         .success, true)

/-- `set_value` on the key at a path of the tree, including the final
`touch_key( key, REG_NOTIFY_CHANGE_LAST_SET )` when a value was written. -/
def set_value_at (t : Key) (p : List Nat) (n : List Nat) (ty : Nat) (d : List Nat)
    (now : Nat) : Key × Status :=
  match nodeAt t p with
  | none => (t, .objectNameNotFound)
  | some k =>
    let r := set_value_core k n ty d
    let t' := setNode t p r.1
    (if r.2.2 then touch_key_at t' p REG_NOTIFY_CHANGE_LAST_SET now else t', r.2.1)

/-! ## `enum_key`

The index handling of `enum_key( key, index, info_class, reply )` and the
access mask its dispatcher demands:

      if (index != -1) {
          if ((index < 0) || (index > key->last_subkey)) { NO_MORE_ENTRIES }
          key = key->subkeys[index];
      }
      ...
      get_hkey_obj( req->hkey, req->index == -1 ? KEY_QUERY_VALUE
                                                : KEY_ENUMERATE_SUB_KEYS )
-/

/-- Which key `enum_key` reports on: the key itself for index `-1`, the
indexed child otherwise. -/
def enum_key_sel (k : Key) (index : Int) : Except Status Key :=
  if index ≠ -1 then
    if index < 0 ∨ k.last_subkey < index then .error .noMoreEntries
    else
      match k.subkeys.get? index.toNat with
      | some c => .ok c
      | none => .error .noMoreEntries   -- out of range, excluded by the guard
  else .ok k

/-- The access the `enum_key` dispatcher requires on the handle. -/
def enum_key_req_access (index : Int) : Nat :=
  if index = -1 then KEY_QUERY_VALUE else KEY_ENUMERATE_SUB_KEYS

/-! ## `create_key` and its handler

Option bits (standard headers): -/

def REG_OPTION_VOLATILE : Nat := 1
def REG_OPTION_CREATE_LINK : Nat := 2

/-- The freshly initialized key of `create_key`:

      key->flags = options & REG_OPTION_VOLATILE ? KEY_VOLATILE : KEY_DIRTY;
      if (options & REG_OPTION_CREATE_LINK) key->flags |= KEY_SYMLINK;
      ...; key->modif = current_time;
-/
def fresh_key (nm cls : List Nat) (options now : Nat) : Key :=
  .mk nm
    { vol := options &&& REG_OPTION_VOLATILE ≠ 0
      deleted := false
      dirty := options &&& REG_OPTION_VOLATILE = 0
      symlink := options &&& REG_OPTION_CREATE_LINK ≠ 0
      wow64 := false
      wowshare := false }
    now [] [] []
  -- (`cls` is copied into `key->class`; the class field is not represented
  -- in the tree model, it plays no part in the verified claims)

/-- How a `create_key` call ended. -/
inductive CreateOutcome where
  | existing        -- create_named_object found the key, error OBJECT_NAME_EXISTS
  | fresh           -- a new leaf was created, error STATUS_SUCCESS
  | parentItself    -- empty path: the parent key itself, error STATUS_SUCCESS
  | failed (st : Status)   -- NULL return with that error
  deriving DecidableEq, Repr

/-- Modelled from the spec: `create_named_object` (an object-manager
collaborator, not part of this code base) resolves the tokenized path with
the key's `lookup_name` and creates the final component when absent.  Per
§4.4/§7 of the spec: a fully resolved path yields the existing key with
`OBJECT_NAME_EXISTS` under `OBJ_OPENIF` (or `OBJECT_NAME_COLLISION` without
it), a missing intermediate component fails `OBJECT_NAME_NOT_FOUND`, and a
missing final component is created.  Per-token work (`find_subkey`, the
256-character segment limit, the volatile-parent check of `create_key`) is
from the source.  The sorted insertion of the new leaf is `key_link_name`'s;
its `touch_key( parent, REG_NOTIFY_CHANGE_NAME )` side effect is not
represented here (the verified claim concerns the reply only). -/
def create_walk (k : Key) (toks : List (List Nat)) (cls : List Nat)
    (options now : Nat) (openIf : Bool) : Key × CreateOutcome :=
  match toks with
  | [] => (k, .existing)
  | [last] =>
    if MAX_NAME_LEN < last.length then (k, .failed .invalidParameter)
    else
      match find_subkey k.subkeys last with
      | (some _, _) =>
        if openIf then (k, .existing) else (k, .failed .objectNameCollision)
      | (none, ins) =>
        if k.flags.vol && decide (options &&& REG_OPTION_VOLATILE = 0) then
          (k, .failed .childMustBeVolatile)
        else
          (.mk k.name k.flags k.modif k.values k.notifies
             (k.subkeys.insertIdx ins (fresh_key last cls options now)),
           .fresh)
  | tok :: rest =>
    if MAX_NAME_LEN < tok.length then (k, .failed .invalidParameter)
    else
      match find_subkey k.subkeys tok with
      | (some i, _) =>
        match k.subkeys.get? i with
        | none => (k, .failed .objectNameNotFound)   -- unreachable: i is in range
        | some c =>
          let r := create_walk c rest cls options now openIf
          (.mk k.name k.flags k.modif k.values k.notifies (k.subkeys.set i r.1),
           r.2)
      | (none, _) => (k, .failed .objectNameNotFound)

/-- `get_path_token` tokenization of a whole path: a leading backslash is
`STATUS_OBJECT_PATH_INVALID`; otherwise the backslash-separated non-empty
segments, runs of backslashes collapsed. -/
def tokenize (path : List Nat) : Option (List (List Nat)) :=
  match path with
  | c :: _ => if c = 0x5C then none else some ((path.splitOn 0x5C).filter (· ≠ []))
  | [] => some []

/-- `create_key( parent, name, class, options, access, attributes, sd )`
with a present parent: the updated tree rooted at the parent and the
outcome.  The empty-name short cut returns the parent itself with the error
slot untouched (`STATUS_SUCCESS`). -/
def create_key_m (parent : Key) (name cls : List Nat) (options now : Nat) :
    Key × CreateOutcome :=
  let openIf := options &&& REG_OPTION_CREATE_LINK = 0  -- attributes |= OBJ_OPENIF
  if name.isEmpty then (parent, .parentItself)
  else
    match tokenize name with
    | none => (parent, .failed .objectPathInvalid)
    | some toks => create_walk parent toks cls options now openIf

/-- The `create_key` request handler's reply logic:

      if ((key = create_key( ... ))) {
          if (get_error() == STATUS_SUCCESS) reply->created = 1;
          else if (get_error() == STATUS_OBJECT_NAME_EXISTS) { reply->created = 0; ... }
          reply->hkey = alloc_handle( ... );
      }

The reply's `created` field: `none` when no key was returned. -/
def create_key_reply (parent : Key) (name cls : List Nat) (options now : Nat) :
    Key × Option Bool :=
  let r := create_key_m parent name cls options now
  match r.2 with
  | .fresh => (r.1, some true)          -- error slot STATUS_SUCCESS
  | .parentItself => (r.1, some true)   -- error slot STATUS_SUCCESS
  | .existing => (r.1, some false)      -- error slot STATUS_OBJECT_NAME_EXISTS
  | .failed _ => (r.1, none)

/-! ## Structural induction for the nested tree types -/

/-- Induction on `DTree` with the hypothesis available on every child. -/
def DTree.indOn {P : DTree → Prop} :
    ∀ t : DTree, (∀ d v cs, (∀ c ∈ cs, P c) → P (DTree.node d v cs)) → P t
  | .node d v cs, h => h d v cs (fun c hc => DTree.indOn c h)
  termination_by t => sizeOf t
  decreasing_by
    have := List.sizeOf_lt_of_mem hc
    simp only [DTree.node.sizeOf_spec]
    omega

/-- Induction on `Key` with the hypothesis available on every subkey. -/
def Key.indOn {P : Key → Prop} :
    ∀ k : Key, (∀ n f m v nt s, (∀ c ∈ s, P c) → P (Key.mk n f m v nt s)) → P k
  | .mk n f m v nt s, h => h n f m v nt s (fun c hc => Key.indOn c h)
  termination_by k => sizeOf k
  decreasing_by
    have := List.sizeOf_lt_of_mem hc
    simp only [Key.mk.sizeOf_spec]
    omega

/-! # Theorems -/

/-! ## C1: the save write path -/

/-- C1, counterexample: on a dirty branch whose destination is a plain
regular file with link count 1 (openable, `lstat`-able, not reached through
a symlink), `save_branch` writes via a tempfile, not in place — the claimed
condition for the two write paths is the source condition inverted. -/
theorem C1_cex_single_link_regular_file_uses_tempfile :
    (save_branch true ⟨true, true, true, 1⟩ true true true).plan = SavePlan.viaTemp ∧
    SavePlan.viaTemp ≠ SavePlan.inPlace := by
  decide

/-- C1 (amended): a dirty branch is written IN PLACE exactly when the
destination opens, `lstat` succeeds, and it is NOT a regular file with link
count 1 (a destination reached through a symlink reports as non-regular to
`lstat`); in every other dirty case the branch goes through a fresh
`reg<pid><counter>.tmp` file which is renamed over the destination exactly
when `fdopen`, the write+`fclose` and the `rename` all succeed, and is
unlinked otherwise.  A clean branch is skipped with success. -/
theorem C1_save_branch_write_path (dirty : Bool) (st : DestStat) (f c r : Bool) :
    ((save_branch dirty st f c r).plan = SavePlan.skip ↔ dirty = false) ∧
    ((save_branch dirty st f c r).plan = SavePlan.inPlace ↔
      dirty = true ∧ st.openOk = true ∧ st.lstatOk = true ∧
        (st.isReg = false ∨ 1 < st.nlink)) ∧
    ((save_branch dirty st f c r).plan = SavePlan.viaTemp ↔
      dirty = true ∧ ¬(st.openOk = true ∧ st.lstatOk = true ∧
        (st.isReg = false ∨ 1 < st.nlink))) ∧
    ((save_branch dirty st f c r).renamed = true ↔
      (save_branch dirty st f c r).plan = SavePlan.viaTemp ∧
        f = true ∧ c = true ∧ r = true) ∧
    ((save_branch dirty st f c r).unlinked = true ↔
      (save_branch dirty st f c r).plan = SavePlan.viaTemp ∧
        ¬(f = true ∧ c = true ∧ r = true)) := by
  rcases st with ⟨o, l, g, nl⟩
  by_cases hnl : 1 < nl
  · rcases dirty <;> rcases o <;> rcases l <;> rcases g <;>
      rcases f <;> rcases c <;> rcases r <;>
      simp [save_branch, hnl]
  · rcases dirty <;> rcases o <;> rcases l <;> rcases g <;>
      rcases f <;> rcases c <;> rcases r <;>
      simp [save_branch, hnl]

/-! ## C7: the `open_key` path-length check -/

/-- C7, counterexample: a path of 32767 wide characters — not longer than
the claimed 65533 — is rejected with `OBJECT_NAME_INVALID` (the source
compares the BYTE length against 65534) even though the key would resolve. -/
theorem C7_cex_32767_wide_chars_rejected :
    open_key_handler (2 * 32767) (Except.ok 0) =
      Except.error Status.objectNameInvalid ∧
    32767 ≤ 65533 :=
  ⟨rfl, by norm_num⟩

/-- C7 (amended): `open_key` fails with `OBJECT_NAME_INVALID` from its
length check exactly when the requested path is longer than 32766 wide
characters (byte length at least 65534), and the check short-circuits the
handler: above the threshold the outcome is the error regardless of the
lookup, below it the outcome is exactly the lookup's. -/
theorem C7_open_key_length_check (nChars : Nat) (lookup : Except Status Nat) :
    open_key_handler (2 * nChars) lookup =
      if 32766 < nChars then Except.error Status.objectNameInvalid else lookup := by
  unfold open_key_handler
  rcases Nat.lt_or_ge 32766 nChars with h | h
  · rw [if_pos (by omega), if_pos h]
  · rw [if_neg (by omega), if_neg (by omega)]

/-! ## C10: `enum_key` with index −1 -/

/-- C10: `enum_key` with index `-1` reports on the given key itself (every
other index selects a child or fails `NO_MORE_ENTRIES`), and the dispatcher
demands `KEY_QUERY_VALUE` for index `-1` and `KEY_ENUMERATE_SUB_KEYS` for
every other index. -/
theorem C10_enum_key_minus_one (k : Key) (i : Int) :
    enum_key_sel k (-1) = Except.ok k ∧
    enum_key_req_access (-1) = KEY_QUERY_VALUE ∧
    enum_key_req_access i =
      (if i = -1 then KEY_QUERY_VALUE else KEY_ENUMERATE_SUB_KEYS) := by
  refine ⟨?_, rfl, rfl⟩
  simp [enum_key_sel]

/-- C10, instantiation at a concrete key and index. -/
theorem C10_enum_key_minus_one_witness :
    enum_key_sel (Key.mk [] ⟨false, false, false, false, false, false⟩ 0 [] [] [])
        (-1) =
      Except.ok (Key.mk [] ⟨false, false, false, false, false, false⟩ 0 [] [] []) ∧
    enum_key_req_access (-1) = KEY_QUERY_VALUE ∧
    enum_key_req_access 3 =
      (if (3 : Int) = -1 then KEY_QUERY_VALUE else KEY_ENUMERATE_SUB_KEYS) :=
  C10_enum_key_minus_one (Key.mk [] ⟨false, false, false, false, false, false⟩ 0 [] [] []) 3

/-! ## C2: the symlink hop cap -/

/-- C2, counterexample: a chain of 17 symlinks (each hop resolving to the
next key, key 17 not a symlink) resolves successfully to key 17 — the
lookup follows 17 hops, one more than the claimed cap of 16, without
raising `NAME_TOO_LONG`. -/
theorem C2_cex_17_hops_resolve :
    resolve_symlinks 0 (fun n => decide (n < 17)) (fun n => some (n + 1)) 0 =
      some 17 ∧
    chain_step (fun n => decide (n < 17)) (fun n => some (n + 1)) 17 0 = some 17 := by
  constructor
  · simp only [resolve_symlinks]
    norm_num [OBJ_OPENLINK]
    simp [resolve_symlinks_from]
  · decide

/-- The loop invariant of the symlink-chasing loop: starting at iteration
counter `it = 17 - m`, the loop aborts exactly when the chain makes
`m + 1` further hops, and a successful result is reached in at most `m`
hops. -/
theorem resolve_from_spec (isLink : Nat → Bool) (follow : Nat → Option Nat) :
    ∀ m found it, it + m = 17 →
      (resolve_symlinks_from isLink follow found it = none ↔
        chain_step isLink follow (m + 1) found ≠ none) ∧
      (∀ x, resolve_symlinks_from isLink follow found it = some x →
        ∃ k, k ≤ m ∧ chain_step isLink follow k found = some x) := by
  intro m
  induction m with
  | zero =>
    intro found it hit
    rw [resolve_symlinks_from]
    rcases hL : isLink found with _ | _
    · simp only [hL, Bool.false_eq_true, if_false]
      constructor
      · simp [chain_step, hL]
      · intro x hx
        exact ⟨0, Nat.le_refl 0, by simpa [chain_step] using hx⟩
    · simp only [hL, if_true]
      rcases hF : follow found with _ | target
      · simp only [hF]
        constructor
        · simp [chain_step, hL, hF]
        · intro x hx
          exact ⟨0, Nat.le_refl 0, by simpa [chain_step] using hx⟩
      · simp only [hF]
        rw [if_pos (by omega)]
        constructor
        · simp [chain_step, hL, hF]
        · intro x hx
          exact absurd hx (by simp)
  | succ m ih =>
    intro found it hit
    rw [resolve_symlinks_from]
    rcases hL : isLink found with _ | _
    · simp only [hL, Bool.false_eq_true, if_false]
      constructor
      · simp [chain_step, hL]
      · intro x hx
        exact ⟨0, Nat.zero_le _, by simpa [chain_step] using hx⟩
    · simp only [hL, if_true]
      rcases hF : follow found with _ | target
      · simp only [hF]
        constructor
        · simp [chain_step, hL, hF]
        · intro x hx
          exact ⟨0, Nat.zero_le _, by simpa [chain_step] using hx⟩
      · simp only [hF]
        rw [if_neg (by omega)]
        have hrec := ih target (it + 1) (by omega)
        constructor
        · rw [hrec.1]
          have hstep : chain_step isLink follow (m + 1 + 1) found =
              chain_step isLink follow (m + 1) target := by
            conv_lhs => rw [chain_step]
            simp [hL, hF]
          rw [hstep]
        · intro x hx
          obtain ⟨k, hk, hchain⟩ := hrec.2 x hx
          refine ⟨k + 1, by omega, ?_⟩
          conv_lhs => rw [chain_step]
          simp [hL, hF, hchain]

/-- C2 (amended): for every lookup whose attributes do not carry
`OPEN_LINK`, symlink resolution follows at most 17 hops — a successful
result is always a key reached by at most 17 hops from the found key — and
aborts with `NAME_TOO_LONG` exactly when the chain of symlinks extends to
18 further hops; in particular the lookup terminates on every input,
cyclic symlink chains included. -/
theorem C2_symlink_hop_cap (attr : Nat) (isLink : Nat → Bool)
    (follow : Nat → Option Nat) (found : Nat) (h : attr &&& OBJ_OPENLINK = 0) :
    (resolve_symlinks attr isLink follow found = none ↔
      chain_step isLink follow 18 found ≠ none) ∧
    (∀ x, resolve_symlinks attr isLink follow found = some x →
      ∃ k, k ≤ 17 ∧ chain_step isLink follow k found = some x) := by
  have hspec := resolve_from_spec isLink follow 17 found 0 (by omega)
  unfold resolve_symlinks
  rw [if_neg (by omega)]
  exact hspec

/-- C2, instantiation on a cyclic one-key chain with `attr = 0`: the
resolution aborts (`none`, i.e. `NAME_TOO_LONG`). -/
theorem C2_symlink_hop_cap_witness :
    ((0 : Nat) &&& OBJ_OPENLINK = 0) ∧
    (resolve_symlinks 0 (fun _ => true) (fun n => some n) 5 = none ↔
      chain_step (fun _ => true) (fun n => some n) 18 5 ≠ none) := by
  refine ⟨by decide, ?_⟩
  exact (C2_symlink_hop_cap 0 (fun _ => true) (fun n => some n) 5 (by decide)).1

/-! ## The name comparator: basic facts -/

theorem memicmpW_self : ∀ (a : List Nat) (n : Nat), memicmpW a a n = 0 := by
  intro a
  induction a with
  | nil => intro n; cases n <;> simp [memicmpW]
  | cons x xs ih =>
    intro n
    cases n with
    | zero => simp [memicmpW]
    | succ m => simp [memicmpW, ih]

theorem memicmpW_antisymm :
    ∀ (a b : List Nat) (n : Nat), memicmpW a b n = -memicmpW b a n := by
  intro a
  induction a with
  | nil =>
    intro b n
    cases b <;> cases n <;> simp [memicmpW]
  | cons x xs ih =>
    intro b n
    cases b with
    | nil => cases n <;> simp [memicmpW]
    | cons y ys =>
      cases n with
      | zero => simp [memicmpW]
      | succ m =>
        by_cases h : wlower x = wlower y
        · simp [memicmpW, h, ih]
        · simp only [memicmpW, h, Ne.symm h, ne_eq, not_false_eq_true, if_true]
          omega

theorem memicmpW_zero_iff :
    ∀ (a b : List Nat) (n : Nat), n ≤ a.length → n ≤ b.length →
      (memicmpW a b n = 0 ↔ (wnorm a).take n = (wnorm b).take n) := by
  intro a
  induction a with
  | nil =>
    intro b n ha _
    obtain rfl : n = 0 := by simpa using ha
    simp [memicmpW]
  | cons x xs ih =>
    intro b n ha hb
    cases n with
    | zero => simp [memicmpW]
    | succ m =>
      cases b with
      | nil => simp at hb
      | cons y ys =>
        by_cases h : wlower x = wlower y
        · simpa [memicmpW, h, wnorm] using
            ih ys m (by simpa using ha) (by simpa using hb)
        · simp only [memicmpW, ne_eq, h, not_false_eq_true, if_true, wnorm,
            List.map_cons, List.take_succ_cons, List.cons.injEq]
          constructor
          · intro hc
            exfalso
            have : (wlower x : Int) = wlower y := by omega
            exact h (by exact_mod_cast this)
          · rintro ⟨hc, -⟩
            exact hc.elim

theorem name_cmp_eq_zero_iff (a b : List Nat) :
    name_cmp a b = 0 ↔ wnorm a = wnorm b := by
  unfold name_cmp
  by_cases hr : memicmpW a b (min a.length b.length) = 0
  · have hiff := memicmpW_zero_iff a b (min a.length b.length)
      (Nat.min_le_left _ _) (Nat.min_le_right _ _)
    simp only [hr, ne_eq, not_true_eq_false, if_false]
    constructor
    · intro hlen
      have hab : a.length = b.length := by omega
      have := hiff.mp hr
      rwa [hab, Nat.min_self, List.take_of_length_le (by simp [wnorm, hab]),
        List.take_of_length_le (by simp [wnorm])] at this
    · intro hw
      have : a.length = b.length := by
        have := congrArg List.length hw
        simpa [wnorm] using this
      omega
  · simp only [ne_eq, hr, not_false_eq_true, if_true]
    constructor
    · intro h; exact h.elim
    · intro hw
      exfalso
      apply hr
      have hl : a.length = b.length := by
        have := congrArg List.length hw
        simpa [wnorm] using this
      exact (memicmpW_zero_iff a b _ (Nat.min_le_left _ _)
        (Nat.min_le_right _ _)).mpr (by rw [hw])

theorem name_cmp_self (a : List Nat) : name_cmp a a = 0 :=
  (name_cmp_eq_zero_iff a a).mpr rfl

theorem name_cmp_antisymm (a b : List Nat) : name_cmp a b = -name_cmp b a := by
  unfold name_cmp
  have h := memicmpW_antisymm a b (min a.length b.length)
  rw [Nat.min_comm b.length a.length]
  by_cases hr : memicmpW a b (min a.length b.length) = 0
  · have hr' : memicmpW b a (min a.length b.length) = 0 := by omega
    simp only [hr, hr', ne_eq, not_true_eq_false, if_false]
    omega
  · have hr' : memicmpW b a (min a.length b.length) ≠ 0 := by omega
    simp only [ne_eq, hr, hr', not_false_eq_true, if_true]
    omega

theorem memicmpW_congr_right :
    ∀ (b b' : List Nat), wnorm b = wnorm b' →
      ∀ (a : List Nat) (n : Nat), memicmpW a b n = memicmpW a b' n := by
  intro b
  induction b with
  | nil =>
    intro b' hw a n
    cases b' with
    | nil => rfl
    | cons y ys => simp [wnorm] at hw
  | cons y ys ih =>
    intro b' hw a n
    cases b' with
    | nil => simp [wnorm] at hw
    | cons z zs =>
      simp only [wnorm, List.map_cons, List.cons.injEq] at hw
      cases a with
      | nil => cases n <;> rfl
      | cons x xs =>
        cases n with
        | zero => rfl
        | succ m => simp [memicmpW, hw.1, ih zs hw.2 xs m]

theorem name_cmp_congr_right (a b b' : List Nat) (h : wnorm b = wnorm b') :
    name_cmp a b = name_cmp a b' := by
  have hl : b.length = b'.length := by
    have := congrArg List.length h
    simpa [wnorm] using this
  unfold name_cmp
  rw [hl, memicmpW_congr_right b b' h a]

/-! ## Binary-search correctness over sorted name arrays -/

theorem sorted_nameAt_lt (ns : List (List Nat)) (hs : namesSorted ns)
    (i j : Nat) (hij : i < j) (hj : j < ns.length) :
    name_cmp (nameAt ns i) (nameAt ns j) < 0 := by
  have hi : i < ns.length := Nat.lt_trans hij hj
  have := (List.pairwise_iff_get.mp hs) ⟨i, hi⟩ ⟨j, hj⟩ hij
  simpa [nameAt, List.get?_eq_get, hi, hj] using this

theorem sorted_zero_unique (ns : List (List Nat)) (n : List Nat)
    (hs : namesSorted ns) (i j : Nat) (hi : i < ns.length) (hj : j < ns.length)
    (h1 : name_cmp (nameAt ns i) n = 0) (h2 : name_cmp (nameAt ns j) n = 0) :
    i = j := by
  rcases Nat.lt_trichotomy i j with hij | hij | hij
  · exfalso
    have hlt := sorted_nameAt_lt ns hs i j hij hj
    have hw : wnorm (nameAt ns j) = wnorm n := (name_cmp_eq_zero_iff _ _).mp h2
    rw [name_cmp_congr_right _ _ _ hw] at hlt
    omega
  · exact hij
  · exfalso
    have hlt := sorted_nameAt_lt ns hs j i hij hi
    have hw : wnorm (nameAt ns i) = wnorm n := (name_cmp_eq_zero_iff _ _).mp h1
    rw [name_cmp_congr_right _ _ _ hw] at hlt
    omega

theorem bsearch_finds (ns : List (List Nat)) (n : List Nat) (hs : namesSorted ns) :
    ∀ (fuel lo : Nat) (hi : Int) (tgt : Nat),
      (hi + 1 - lo).toNat ≤ fuel → hi < (ns.length : Int) →
      lo ≤ tgt → (tgt : Int) ≤ hi → name_cmp (nameAt ns tgt) n = 0 →
      (bsearch_name ns n lo hi).1 = some tgt := by
  intro fuel
  induction fuel with
  | zero =>
    intro lo hi tgt hfuel _ hlo hhi _
    exfalso; omega
  | succ fuel ih =>
    intro lo hi tgt hfuel hlen hlo hhi heq
    have hlh : (lo : Int) ≤ hi := by omega
    have htgt : tgt < ns.length := by omega
    rw [bsearch_name, dif_pos hlh]
    have hm1 : (lo : Int) ≤ ((lo : Int) + hi) / 2 := by omega
    have hm2 : ((lo : Int) + hi) / 2 ≤ hi := by omega
    set m : Nat := (((lo : Int) + hi) / 2).toNat with hm
    have hmlo : lo ≤ m := by omega
    have hmhi : (m : Int) ≤ hi := by omega
    have hmlen : m < ns.length := by omega
    by_cases hres : name_cmp (nameAt ns m) n = 0
    · have hmt : m = tgt := sorted_zero_unique ns n hs m tgt hmlen htgt hres heq
      rw [hmt]
      simp [heq]
    · rcases Int.lt_or_lt_of_ne (fun h => hres h) with hlt | hgt
      · -- probe name smaller than `n`: the target is to the right
        have htr : m < tgt := by
          rcases Nat.lt_or_ge m tgt with h | h
          · exact h
          · exfalso
            rcases Nat.eq_or_lt_of_le h with h' | h'
            · exact hres (h' ▸ heq)
            · have hw : wnorm (nameAt ns tgt) = wnorm n :=
                (name_cmp_eq_zero_iff _ _).mp heq
              have hlt2 := sorted_nameAt_lt ns hs tgt m h' hmlen
              have := name_cmp_antisymm (nameAt ns tgt) (nameAt ns m)
              have hgt2 : 0 < name_cmp (nameAt ns m) (nameAt ns tgt) := by omega
              rw [name_cmp_congr_right _ _ _ hw] at hgt2
              omega
        simp only [hres, if_false, hlt, if_neg (by omega : ¬ (0 : Int) < name_cmp (nameAt ns m) n)]
        exact ih (m + 1) hi tgt (by omega) hlen htr (by omega) heq
      · -- probe name greater than `n`: the target is to the left
        have htl : tgt < m := by
          rcases Nat.lt_or_ge tgt m with h | h
          · exact h
          · exfalso
            rcases Nat.eq_or_lt_of_le h with h' | h'
            · exact hres (h' ▸ heq)
            · have hw : wnorm (nameAt ns tgt) = wnorm n :=
                (name_cmp_eq_zero_iff _ _).mp heq
              have hlt2 := sorted_nameAt_lt ns hs m tgt h' htgt
              rw [name_cmp_congr_right _ _ _ hw] at hlt2
              omega
        simp only [hres, if_false, if_pos hgt]
        exact ih lo ((m : Int) - 1) tgt (by omega) (by omega) hlo (by omega) heq

theorem bsearch_misses (ns : List (List Nat)) (n : List Nat) :
    ∀ (fuel lo : Nat) (hi : Int),
      (hi + 1 - lo).toNat ≤ fuel → hi < (ns.length : Int) →
      (∀ j, j < ns.length → name_cmp (nameAt ns j) n ≠ 0) →
      (bsearch_name ns n lo hi).1 = none := by
  intro fuel
  induction fuel with
  | zero =>
    intro lo hi hfuel _ _
    rw [bsearch_name, dif_neg (by omega)]
  | succ fuel ih =>
    intro lo hi hfuel hlen hall
    by_cases hlh : (lo : Int) ≤ hi
    · rw [bsearch_name, dif_pos hlh]
      have hm1 : (lo : Int) ≤ ((lo : Int) + hi) / 2 := by omega
      have hm2 : ((lo : Int) + hi) / 2 ≤ hi := by omega
      set m : Nat := (((lo : Int) + hi) / 2).toNat with hm
      have hmlen : m < ns.length := by omega
      have hres := hall m hmlen
      rcases Int.lt_or_lt_of_ne (fun h => hres h) with hlt | hgt
      · simp only [hres, if_false, hlt,
          if_neg (by omega : ¬ (0 : Int) < name_cmp (nameAt ns m) n)]
        exact ih (m + 1) hi (by omega) hlen hall
      · simp only [hres, if_false, if_pos hgt]
        exact ih lo ((m : Int) - 1) (by omega) (by omega) hall
    · rw [bsearch_name, dif_neg hlh]

/-! ## `find_value` on sorted value arrays -/

theorem List.set_same {α : Type} :
    ∀ (l : List α) (i : Nat) (x : α), l.get? i = some x → l.set i x = l := by
  intro l
  induction l with
  | nil => intro i x h; cases i <;> simp at h
  | cons a as ih =>
    intro i x h
    cases i with
    | zero => simp_all
    | succ j =>
      simp only [List.get?_cons_succ] at h
      simp [ih j x h]

theorem Key.eta (k : Key) :
    Key.mk k.name k.flags k.modif k.values k.notifies k.subkeys = k := by
  cases k; rfl

theorem setNode_self :
    ∀ (t : Key) (p : List Nat) (k : Key), nodeAt t p = some k →
      setNode t p k = t := by
  intro t p
  induction p generalizing t with
  | nil =>
    intro k h
    simp only [nodeAt, Option.some.injEq] at h
    subst h
    rfl
  | cons i p ih =>
    intro k h
    simp only [nodeAt] at h
    rcases hc : t.subkeys.get? i with _ | c
    · rw [hc] at h; exact absurd h (by simp)
    · rw [hc] at h
      simp only [setNode, hc]
      rw [ih c k h, List.set_same _ _ _ hc, Key.eta]

theorem find_value_finds (vals : List KeyValue) (n : List Nat) (v : KeyValue)
    (hs : valuesSorted vals) (hmem : v ∈ vals) (hname : wnorm v.name = wnorm n) :
    (find_value vals n).1 = some v := by
  obtain ⟨iv, hiv⟩ := List.get?_of_mem hmem
  have hivlen : iv < vals.length := (List.get?_eq_some.mp hiv).1
  have hiv2 : vals[iv]? = some v := by rwa [List.get?_eq_getElem?] at hiv
  have hlenmap : (vals.map KeyValue.name).length = vals.length :=
    List.length_map _ _
  have hnm : nameAt (vals.map KeyValue.name) iv = v.name := by
    simp [nameAt, List.get?_eq_getElem?, List.getElem?_map, hiv2]
  have heq : name_cmp (nameAt (vals.map KeyValue.name) iv) n = 0 := by
    rw [hnm]
    exact (name_cmp_eq_zero_iff _ _).mpr hname
  have hfound := bsearch_finds (vals.map KeyValue.name) n hs
    (vals.length + 1) 0 ((vals.length : Int) - 1) iv
    (by omega) (by rw [hlenmap]; omega) (Nat.zero_le _) (by omega) heq
  simp [find_value, hfound, hiv, hiv2]

theorem identical_value_present_true (vals : List KeyValue) (n : List Nat)
    (ty : Nat) (d : List Nat) (v : KeyValue)
    (hs : valuesSorted vals) (hmem : v ∈ vals) (hname : wnorm v.name = wnorm n)
    (hty : v.vtype = ty) (hd : v.data = d) (hne : d ≠ []) :
    identical_value_present vals n ty d = true := by
  unfold identical_value_present
  rw [find_value_finds vals n v hs hmem hname]
  simp [hty, hd, List.isEmpty_iff, hne]

theorem set_value_at_skip (t : Key) (p : List Nat) (k : Key) (n : List Nat)
    (ty : Nat) (d : List Nat) (now : Nat)
    (hk : nodeAt t p = some k)
    (hskip : identical_value_present k.values n ty d = true) :
    set_value_at t p n ty d now = (t, Status.success) := by
  unfold set_value_at
  rw [hk]
  simp only [set_value_core, hskip, if_true, if_false, Bool.false_eq_true]
  rw [setNode_self t p k hk]

/-! ## C4: identical `set_value` is a no-op -/

/-- C4, counterexample: a value whose payload is EMPTY defeats the
identical-value check (`value->data` is NULL), so re-setting the very same
`(name, type, len = 0, bytes)` value is not a no-op: the call succeeds and
the key is marked dirty (and `touch_key` fires `CHANGE_LAST_SET`
notifications), refuting the claim at `len(b) = 0`. -/
theorem C4_cex_empty_payload_dirties :
    ({ name := [0x61], vtype := 1, data := ([] : List Nat) } : KeyValue) ∈
      (Key.mk [] ⟨false, false, false, false, false, false⟩ 0
        [{ name := [0x61], vtype := 1, data := [] }] [] []).values ∧
    (set_value_at (Key.mk [] ⟨false, false, false, false, false, false⟩ 0
        [{ name := [0x61], vtype := 1, data := [] }] [] [])
      [] [0x61] 1 [] 7).2 = Status.success ∧
    (set_value_at (Key.mk [] ⟨false, false, false, false, false, false⟩ 0
        [{ name := [0x61], vtype := 1, data := [] }] [] [])
      [] [0x61] 1 [] 7).1.flags.dirty = true ∧
    (Key.mk [] ⟨false, false, false, false, false, false⟩ 0
        [{ name := [0x61], vtype := 1, data := [] }] [] []).flags.dirty = false := by
  refine ⟨by simp [Key.values], ?_, ?_, by simp [Key.flags]⟩ <;>
    simp [set_value_at, set_value_core, identical_value_present, find_value,
      bsearch_name, nameAt, name_cmp, memicmpW, wlower, nodeAt, Key.values,
      Key.flags, symlink_value_allowed, touch_key_at, notify_walk, make_dirty_at,
      set_modif_at, make_dirty_step, check_notify_list, setNode, Key.name,
      Key.modif, Key.notifies, Key.subkeys]

/-- C4 (amended): if a value case-insensitively named `n` already exists on
the key with exactly type `t`, length `len(b)` and bytes `b`, AND the
stored payload is non-empty (`len(b) > 0`, so the stored data pointer is
non-NULL), then `set_value` is a no-op: it returns success, the whole tree
is unchanged — the key is not modified, not marked dirty, and no
notification fires anywhere; hence two consecutive such identical calls
dirty the key at most once. -/
theorem C4_identical_set_value_noop (t : Key) (p : List Nat) (k : Key)
    (n : List Nat) (ty : Nat) (d : List Nat) (now : Nat) (v : KeyValue)
    (hk : nodeAt t p = some k)
    (hs : valuesSorted k.values)
    (hmem : v ∈ k.values)
    (hname : wnorm v.name = wnorm n)
    (hty : v.vtype = ty) (hd : v.data = d) (hne : d ≠ []) :
    set_value_at t p n ty d now = (t, Status.success) :=
  set_value_at_skip t p k n ty d now hk
    (identical_value_present_true k.values n ty d v hs hmem hname hty hd hne)

/-- C4, instantiation: a one-value key, re-setting the same non-empty
value. -/
theorem C4_identical_set_value_noop_witness :
    (nodeAt (Key.mk [] ⟨false, false, false, false, false, false⟩ 0
        [{ name := [0x61], vtype := 1, data := [2, 3] }] [] []) [] =
      some (Key.mk [] ⟨false, false, false, false, false, false⟩ 0
        [{ name := [0x61], vtype := 1, data := [2, 3] }] [] [])) ∧
    valuesSorted (Key.mk [] ⟨false, false, false, false, false, false⟩ 0
        [{ name := [0x61], vtype := 1, data := [2, 3] }] [] []).values ∧
    set_value_at (Key.mk [] ⟨false, false, false, false, false, false⟩ 0
        [{ name := [0x61], vtype := 1, data := [2, 3] }] [] [])
      [] [0x61] 1 [2, 3] 7 =
      (Key.mk [] ⟨false, false, false, false, false, false⟩ 0
        [{ name := [0x61], vtype := 1, data := [2, 3] }] [] [], Status.success) :=
  ⟨rfl, by decide,
    C4_identical_set_value_noop _ [] _ [0x61] 1 [2, 3] 7
      { name := [0x61], vtype := 1, data := [2, 3] }
      rfl (by decide) (by decide) (by decide) (by decide) (by decide) (by decide)⟩

/-! ## C5: the symlink-key write restriction -/

/-- C5, counterexample: a SYMLINK-flagged key holding a non-link value
`("f", REG_SZ, [1])`; re-setting that identical value succeeds (no-op path)
instead of failing `ACCESS_DENIED`, because the identical-value check runs
before the symlink restriction. -/
theorem C5_cex_identical_write_on_symlink_succeeds :
    (Key.mk [] ⟨false, false, false, true, false, false⟩ 0
        [{ name := [0x66], vtype := 1, data := [1] }] [] []).flags.symlink = true ∧
    set_value_at (Key.mk [] ⟨false, false, false, true, false, false⟩ 0
        [{ name := [0x66], vtype := 1, data := [1] }] [] [])
      [] [0x66] 1 [1] 7 =
      (Key.mk [] ⟨false, false, false, true, false, false⟩ 0
        [{ name := [0x66], vtype := 1, data := [1] }] [] [], Status.success) ∧
    Status.success ≠ Status.accessDenied := by
  refine ⟨by simp [Key.flags], ?_, by decide⟩
  exact set_value_at_skip _ [] _ [0x66] 1 [1] 7 rfl
    (by simp [identical_value_present, find_value, bsearch_name, nameAt,
      name_cmp, memicmpW, wlower, Key.values])

/-- C5 (amended): on a key carrying the SYMLINK flag, any `set_value` that
is not an exact rewrite of an existing value with non-empty payload
(`identical_value_present` false — the amendment) and whose value is not
named `SymbolicLinkValue` (case-insensitively) with type `REG_LINK` fails
with `ACCESS_DENIED` and leaves the whole tree unchanged. -/
theorem C5_symlink_write_denied (t : Key) (p : List Nat) (k : Key)
    (n : List Nat) (ty : Nat) (d : List Nat) (now : Nat)
    (hk : nodeAt t p = some k)
    (hsym : k.flags.symlink = true)
    (hnoskip : identical_value_present k.values n ty d = false)
    (hdeny : symlink_value_allowed n ty = false) :
    set_value_at t p n ty d now = (t, Status.accessDenied) := by
  unfold set_value_at
  rw [hk]
  simp only [set_value_core, hnoskip, Bool.false_eq_true, if_false, hsym,
    hdeny, Bool.not_false, Bool.and_self, if_true]
  rw [setNode_self t p k hk]

/-- C5, instantiation: writing `("g", REG_SZ, [9])` on a symlink key. -/
theorem C5_symlink_write_denied_witness :
    (nodeAt (Key.mk [] ⟨false, false, false, true, false, false⟩ 0 [] [] []) [] =
      some (Key.mk [] ⟨false, false, false, true, false, false⟩ 0 [] [] [])) ∧
    (Key.mk [] ⟨false, false, false, true, false, false⟩ 0 [] [] []).flags.symlink
      = true ∧
    set_value_at (Key.mk [] ⟨false, false, false, true, false, false⟩ 0 [] [] [])
      [] [0x67] 1 [9] 7 =
      (Key.mk [] ⟨false, false, false, true, false, false⟩ 0 [] [] [],
       Status.accessDenied) :=
  ⟨rfl, rfl,
    C5_symlink_write_denied _ [] _ [0x67] 1 [9] 7 rfl rfl
      (by simp [identical_value_present, find_value, bsearch_name, Key.values])
      (by decide)⟩

/-! ## C6: the notification walk -/

theorem list_map_set {α β : Type} (f : α → β) :
    ∀ (l : List α) (i : Nat) (a : α), (l.set i a).map f = (l.map f).set i (f a) := by
  intro l
  induction l with
  | nil => intro i a; simp
  | cons x xs ih =>
    intro i a
    cases i with
    | zero => simp
    | succ j => simp [ih j a]

theorem notifAt_set_modif :
    ∀ (p : List Nat) (t : Key) (now : Nat) (q : List Nat),
      notifAt (set_modif_at t p now) q = notifAt t q := by
  intro p
  induction p with
  | nil =>
    intro t now q
    cases q <;> simp [set_modif_at, notifAt, nodeAt, Key.notifies, Key.subkeys]
  | cons i p ih =>
    intro t now q
    obtain ⟨nm, fl, md, vl, nt, s⟩ := t
    simp only [set_modif_at, Key.subkeys]
    rcases hc : s.get? i with _ | c
    · rfl
    · cases q with
      | nil => simp [notifAt, nodeAt, Key.notifies]
      | cons j q' =>
        simp only [notifAt, nodeAt, Key.subkeys]
        by_cases hij : i = j
        · subst hij
          rw [List.get?_set_eq_of_lt _ (List.get?_eq_some.mp hc).1, hc]
          exact ih c now q'
        · rw [List.get?_set_ne _ _ hij]

theorem notifAt_make_dirty :
    ∀ (p : List Nat) (t : Key) (q : List Nat),
      notifAt (make_dirty_at t p).1 q = notifAt t q := by
  intro p
  induction p with
  | nil =>
    intro t q
    have hstep : ((make_dirty_at t []).1).notifies = t.notifies := by
      simp [make_dirty_at, Key.notifies]
    cases q with
    | nil => simp [notifAt, nodeAt, hstep]
    | cons j q' =>
      have hsub : ((make_dirty_at t []).1).subkeys = t.subkeys := by
        simp [make_dirty_at, Key.subkeys]
      simp [notifAt, nodeAt, hsub]
  | cons i p ih =>
    intro t q
    obtain ⟨nm, fl, md, vl, nt, s⟩ := t
    simp only [make_dirty_at, Key.subkeys]
    rcases hc : s.get? i with _ | c
    · rfl
    · rcases hr : (make_dirty_at c p).2 with _ | _ <;>
        simp only [hr, Bool.false_eq_true, if_false, if_true] <;>
      · cases q with
        | nil => simp [notifAt, nodeAt, Key.notifies, make_dirty_step]
        | cons j q' =>
          simp only [notifAt, nodeAt, Key.subkeys]
          by_cases hij : i = j
          · subst hij
            rw [List.get?_set_eq_of_lt _ (List.get?_eq_some.mp hc).1, hc]
            exact ih c q'
          · rw [List.get?_set_ne _ _ hij]

theorem notify_walk_target :
    ∀ (p : List Nat) (t : Key) (c : Nat),
      notifAt (notify_walk t p c) p =
        (notifAt t p).map (fun ns => check_notify_list ns c true) := by
  intro p
  induction p with
  | nil => intro t c; simp [notify_walk, notifAt, nodeAt, Key.notifies]
  | cons i p ih =>
    intro t c
    obtain ⟨nm, fl, md, vl, nt, s⟩ := t
    simp only [notify_walk, Key.subkeys]
    rcases hc : s.get? i with _ | c0
    · simp only [notifAt, nodeAt, Key.subkeys]
      rw [hc]
      rfl
    · simp only [notifAt, nodeAt, Key.subkeys]
      rw [List.get?_set_eq_of_lt _ (List.get?_eq_some.mp hc).1, hc]
      exact ih c0 c

theorem notify_walk_ancestors :
    ∀ (p : List Nat) (t : Key) (c : Nat), (nodeAt t p).isSome = true →
      ∀ j : Nat, j < p.length →
        notifAt (notify_walk t p c) (p.take j) =
          (notifAt t (p.take j)).map
            (fun ns => check_notify_list ns (c &&& NOT_LAST_SET_MASK) false) := by
  intro p
  induction p with
  | nil => intro t c _ j hj; exact absurd hj (by simp)
  | cons i p ih =>
    intro t c hsome j hj
    obtain ⟨nm, fl, md, vl, nt, s⟩ := t
    simp only [nodeAt, Key.subkeys] at hsome
    simp only [notify_walk, Key.subkeys]
    rcases hc : s.get? i with _ | c0
    · rw [hc] at hsome
      simp at hsome
    · rw [hc] at hsome
      cases j with
      | zero => simp [notifAt, nodeAt, Key.notifies]
      | succ j' =>
        simp only [List.take_succ_cons, notifAt, nodeAt, Key.subkeys]
        rw [List.get?_set_eq_of_lt _ (List.get?_eq_some.mp hc).1, hc]
        exact ih c0 c hsome j' (by simpa using hj)

/-- C6: a mutation with change-kind `c` at the key at path `p` runs
`check_notify` with `not_subtree = 1` and the unmasked change on that key's
own subscription list — signaling every subscription whose filter meets `c`
regardless of its subtree flag — and on every proper ancestor runs
`check_notify` with `not_subtree = 0` and `c & ~REG_NOTIFY_CHANGE_LAST_SET`
— signaling only `subtree = true` subscriptions whose filter meets the
masked change; with `c = REG_NOTIFY_CHANGE_LAST_SET` the masked change
matches no filter, so value-change notifications never reach ancestor
subscriptions. -/
theorem C6_notify_walk (t : Key) (p : List Nat) (c now : Nat)
    (hsome : (nodeAt t p).isSome = true) :
    (notifAt (touch_key_at t p c now) p =
      (notifAt t p).map (fun ns => check_notify_list ns c true)) ∧
    (∀ j, j < p.length →
      notifAt (touch_key_at t p c now) (p.take j) =
        (notifAt t (p.take j)).map
          (fun ns => check_notify_list ns (c &&& NOT_LAST_SET_MASK) false)) ∧
    (∀ ns, check_notify_list ns
        (REG_NOTIFY_CHANGE_LAST_SET &&& NOT_LAST_SET_MASK) false = ns) ∧
    (∀ ns, check_notify_list ns c true = ns.map fun nf =>
      if c &&& nf.filter ≠ 0 then { nf with event := false } else nf) := by
  have hsome2 : (nodeAt (make_dirty_at (set_modif_at t p now) p).1 p).isSome
      = true := by
    have h1 : notifAt (make_dirty_at (set_modif_at t p now) p).1 p = notifAt t p := by
      rw [notifAt_make_dirty, notifAt_set_modif]
    simp only [notifAt] at h1
    rcases hn : nodeAt t p with _ | k
    · rw [hn] at hsome; simp at hsome
    · rw [hn] at h1
      rcases hn2 : nodeAt (make_dirty_at (set_modif_at t p now) p).1 p with _ | k'
      · rw [hn2] at h1; simp at h1
      · simp
  refine ⟨?_, ?_, ?_, ?_⟩
  · rw [touch_key_at, notify_walk_target, notifAt_make_dirty, notifAt_set_modif]
  · intro j hj
    rw [touch_key_at, notify_walk_ancestors _ _ _ hsome2 j hj, notifAt_make_dirty,
      notifAt_set_modif]
  · intro ns
    have hmask : REG_NOTIFY_CHANGE_LAST_SET &&& NOT_LAST_SET_MASK = 0 := by decide
    rw [hmask]
    simp [check_notify_list, Nat.zero_and]
  · intro ns
    simp [check_notify_list]

/-- C6, instantiation: a parent with one `subtree = false` armed
subscription and a child mutated with `CHANGE_LAST_SET`; the theorem is
applied at path `[0]`, `j = 0`. -/
theorem C6_notify_walk_witness :
    ((nodeAt
        (Key.mk [] ⟨false, false, false, false, false, false⟩ 0 []
          [{ event := true, subtree := false, filter := 1, hkey := 9, pid := 1 }]
          [Key.mk [0x61] ⟨false, false, false, false, false, false⟩ 0 [] [] []])
        [0]).isSome = true) ∧
    (0 < [(0 : Nat)].length) ∧
    notifAt (touch_key_at
        (Key.mk [] ⟨false, false, false, false, false, false⟩ 0 []
          [{ event := true, subtree := false, filter := 1, hkey := 9, pid := 1 }]
          [Key.mk [0x61] ⟨false, false, false, false, false, false⟩ 0 [] [] []])
        [0] REG_NOTIFY_CHANGE_LAST_SET 5)
      ([0].take 0) =
      (notifAt
        (Key.mk [] ⟨false, false, false, false, false, false⟩ 0 []
          [{ event := true, subtree := false, filter := 1, hkey := 9, pid := 1 }]
          [Key.mk [0x61] ⟨false, false, false, false, false, false⟩ 0 [] [] []])
        ([0].take 0)).map
        (fun ns => check_notify_list ns
          (REG_NOTIFY_CHANGE_LAST_SET &&& NOT_LAST_SET_MASK) false) :=
  ⟨by decide, by decide,
    (C6_notify_walk
      (Key.mk [] ⟨false, false, false, false, false, false⟩ 0 []
        [{ event := true, subtree := false, filter := 1, hkey := 9, pid := 1 }]
        [Key.mk [0x61] ⟨false, false, false, false, false, false⟩ 0 [] [] []])
      [0] REG_NOTIFY_CHANGE_LAST_SET 5 (by decide)).2.1 0 (by decide)⟩

/-! ## C9: identical write on a symlink key no-ops before the restriction -/

/-- C9, counterexample: on a symlink key whose stored value has an EMPTY
payload, re-setting the identical `(name, type, len = 0, bytes)` value does
NOT return success: the identical-value check fails on the NULL data
pointer and the symlink restriction then raises `ACCESS_DENIED`. -/
theorem C9_cex_empty_payload_denied :
    (Key.mk [] ⟨false, false, false, true, false, false⟩ 0
        [{ name := [0x66], vtype := 1, data := [] }] [] []).flags.symlink = true ∧
    ({ name := [0x66], vtype := 1, data := ([] : List Nat) } : KeyValue) ∈
      (Key.mk [] ⟨false, false, false, true, false, false⟩ 0
        [{ name := [0x66], vtype := 1, data := [] }] [] []).values ∧
    (set_value_at (Key.mk [] ⟨false, false, false, true, false, false⟩ 0
        [{ name := [0x66], vtype := 1, data := [] }] [] [])
      [] [0x66] 1 [] 7).2 = Status.accessDenied := by
  refine ⟨by simp [Key.flags], by simp [Key.values], ?_⟩
  simp [set_value_at, set_value_core, identical_value_present, find_value,
    bsearch_name, nameAt, name_cmp, memicmpW, wlower, nodeAt, Key.values,
    Key.flags, symlink_value_allowed, setNode, REG_LINK, symlink_str]

/-- C9 (amended): on a key carrying the SYMLINK flag, `set_value` with a
name, type, length and bytes identical to an already-present value whose
payload is NON-EMPTY returns success without modifying the tree, even when
that value is not a `REG_LINK` value named `SymbolicLinkValue` — the
identical-value no-op check is performed before the symlink restriction. -/
theorem C9_symlink_identical_noop (t : Key) (p : List Nat) (k : Key)
    (n : List Nat) (ty : Nat) (d : List Nat) (now : Nat) (v : KeyValue)
    (hk : nodeAt t p = some k)
    (hs : valuesSorted k.values)
    (hsym : k.flags.symlink = true)
    (hdeny : symlink_value_allowed n ty = false)
    (hmem : v ∈ k.values)
    (hname : wnorm v.name = wnorm n)
    (hty : v.vtype = ty) (hd : v.data = d) (hne : d ≠ []) :
    set_value_at t p n ty d now = (t, Status.success) :=
  set_value_at_skip t p k n ty d now hk
    (identical_value_present_true k.values n ty d v hs hmem hname hty hd hne)

/-- C9, instantiation: symlink key with the non-link value
`("f", REG_SZ, [1])`, re-set identically. -/
theorem C9_symlink_identical_noop_witness :
    (Key.mk [] ⟨false, false, false, true, false, false⟩ 0
        [{ name := [0x66], vtype := 1, data := [1] }] [] []).flags.symlink
      = true ∧
    symlink_value_allowed [0x66] 1 = false ∧
    set_value_at (Key.mk [] ⟨false, false, false, true, false, false⟩ 0
        [{ name := [0x66], vtype := 1, data := [1] }] [] [])
      [] [0x66] 1 [1] 7 =
      (Key.mk [] ⟨false, false, false, true, false, false⟩ 0
        [{ name := [0x66], vtype := 1, data := [1] }] [] [], Status.success) :=
  ⟨rfl, by decide,
    C9_symlink_identical_noop _ [] _ [0x66] 1 [1] 7
      { name := [0x66], vtype := 1, data := [1] }
      rfl (by decide) rfl (by decide) (by decide) (by decide) (by decide)
      (by decide) (by decide)⟩

/-! ## C3: the dirty-propagation invariant

List-level facts about `hasDNVL`, `dinvL` and `vheredL`. -/

theorem list_get_q_map {α β : Type} (f : α → β) :
    ∀ (l : List α) (i : Nat), (l.map f).get? i = (l.get? i).map f := by
  intro l
  induction l with
  | nil => intro i; cases i <;> rfl
  | cons x xs ih => intro i; cases i with
    | zero => rfl
    | succ j => simpa using ih j

theorem hasDNVL_all :
    ∀ cs : List DTree, (∀ c ∈ cs, hasDNV c = false) → hasDNVL cs = false := by
  intro cs
  induction cs with
  | nil => intro _; simp [hasDNVL]
  | cons c cs ih =>
    intro h
    simp only [hasDNVL, Bool.or_eq_false_iff]
    exact ⟨h c (by simp), ih fun x hx => h x (by simp [hx])⟩

theorem hasDNVL_of_get :
    ∀ (cs : List DTree) (i : Nat) (c : DTree), cs.get? i = some c →
      hasDNV c = true → hasDNVL cs = true := by
  intro cs
  induction cs with
  | nil => intro i c h; cases i <;> simp at h
  | cons x xs ih =>
    intro i c h hc
    cases i with
    | zero =>
      simp only [List.get?_cons_zero, Option.some.injEq] at h
      simp [hasDNVL, h ▸ hc]
    | succ j =>
      simp only [List.get?_cons_succ] at h
      simp [hasDNVL, ih j c h hc]

theorem hasDNVL_set_congr :
    ∀ (cs : List DTree) (i : Nat) (c c' : DTree), cs.get? i = some c →
      hasDNV c' = hasDNV c → hasDNVL (cs.set i c') = hasDNVL cs := by
  intro cs
  induction cs with
  | nil => intro i c _ h; cases i <;> simp at h
  | cons x xs ih =>
    intro i c c' h he
    cases i with
    | zero =>
      simp only [List.get?_cons_zero, Option.some.injEq] at h
      simp [hasDNVL, h ▸ he]
    | succ j =>
      simp only [List.get?_cons_succ] at h
      simp [hasDNVL, ih j c c' h he]

theorem hasDNVL_set_imp :
    ∀ (cs : List DTree) (i : Nat) (c' : DTree),
      hasDNVL (cs.set i c') = true →
      hasDNV c' = true ∨ hasDNVL cs = true := by
  intro cs
  induction cs with
  | nil => intro i c' h; simp [hasDNVL] at h
  | cons x xs ih =>
    intro i c' h
    cases i with
    | zero =>
      simp only [List.set_cons_zero, hasDNVL, Bool.or_eq_true] at h ⊢
      tauto
    | succ j =>
      simp only [List.set_cons_succ, hasDNVL, Bool.or_eq_true] at h ⊢
      rcases h with h | h
      · tauto
      · rcases ih j c' h with h' | h' <;> tauto

theorem dinvL_of_mem :
    ∀ (cs : List DTree) (c : DTree), dinvL cs = true → c ∈ cs → dinv c = true := by
  intro cs
  induction cs with
  | nil => intro c _ h; simp at h
  | cons x xs ih =>
    intro c h hm
    simp only [dinvL, Bool.and_eq_true] at h
    rcases List.mem_cons.mp hm with rfl | hm'
    · exact h.1
    · exact ih c h.2 hm'

theorem dinvL_set :
    ∀ (cs : List DTree) (i : Nat) (c' : DTree), dinvL cs = true →
      dinv c' = true → dinvL (cs.set i c') = true := by
  intro cs
  induction cs with
  | nil => intro i c' h _; cases i <;> simpa using h
  | cons x xs ih =>
    intro i c' h hc
    simp only [dinvL, Bool.and_eq_true] at h
    cases i with
    | zero => simp [dinvL, hc, h.2]
    | succ j => simp [dinvL, h.1, ih j c' h.2 hc]

theorem dinvL_all :
    ∀ cs : List DTree, (∀ c ∈ cs, dinv c = true) → dinvL cs = true := by
  intro cs
  induction cs with
  | nil => intro _; simp [dinvL]
  | cons x xs ih =>
    intro h
    simp [dinvL, h x (by simp), ih fun c hc => h c (by simp [hc])]

theorem vheredL_of_mem :
    ∀ (v : Bool) (cs : List DTree) (c : DTree), vheredL v cs = true → c ∈ cs →
      vhered c = true ∧ (v = true → c.vol = true) := by
  intro v cs
  induction cs with
  | nil => intro c _ h; simp at h
  | cons x xs ih =>
    intro c h hm
    simp only [vheredL, Bool.and_eq_true] at h
    rcases List.mem_cons.mp hm with rfl | hm'
    · refine ⟨h.1.2, fun hv => ?_⟩
      have := h.1.1
      simp [hv] at this
      exact this
    · exact ih c h.2 hm'

theorem vheredL_set :
    ∀ (v : Bool) (cs : List DTree) (i : Nat) (c c' : DTree), cs.get? i = some c →
      vheredL v cs = true → vhered c' = true → c'.vol = c.vol →
      vheredL v (cs.set i c') = true := by
  intro v cs
  induction cs with
  | nil => intro i c _ h; cases i <;> simp at h
  | cons x xs ih =>
    intro i c c' h hvh hc hvol
    simp only [vheredL, Bool.and_eq_true] at hvh
    cases i with
    | zero =>
      simp only [List.get?_cons_zero, Option.some.injEq] at h
      subst h
      simp only [List.set_cons_zero, vheredL, Bool.and_eq_true]
      refine ⟨⟨?_, hc⟩, hvh.2⟩
      rw [hvol]
      exact hvh.1.1
    | succ j =>
      simp only [List.get?_cons_succ] at h
      simp only [List.set_cons_succ, vheredL, Bool.and_eq_true]
      exact ⟨hvh.1, ih j c c' h hvh.2 hc hvol⟩

theorem vheredL_all :
    ∀ (v : Bool) (cs : List DTree),
      (∀ c ∈ cs, ((!v || c.vol) = true ∧ vhered c = true)) →
      vheredL v cs = true := by
  intro v cs
  induction cs with
  | nil => intro _; simp [vheredL]
  | cons x xs ih =>
    intro h
    have hx := h x (by simp)
    simp [vheredL, hx.1, hx.2, ih fun c hc => h c (by simp [hc])]

/-- A volatile subtree satisfying hereditary volatility contains no dirty
non-volatile key. -/
theorem vol_no_dnv :
    ∀ t : DTree, vhered t = true → t.vol = true → hasDNV t = false := by
  intro t
  induction t using DTree.indOn with
  | _ d v cs ih =>
    intro hv hvol
    simp only [DTree.vol] at hvol
    subst hvol
    simp only [vhered] at hv
    simp only [hasDNV, Bool.not_true, Bool.and_false, Bool.false_or]
    exact hasDNVL_all cs fun c hc => by
      have h2 := vheredL_of_mem true cs c hv hc
      exact ih c hc h2.1 (h2.2 rfl)

/-- `make_dirty` preserves the dirty-propagation invariant and hereditary
volatility; while the climb is running the marked node is dirty and
non-volatile; if the climb has stopped, whether the subtree contains a
dirty non-volatile key is unchanged. -/
theorem mdirty_preserves :
    ∀ (p : List Nat) (t : DTree), vhered t = true → dinv t = true →
      dinv (mdirty t p).1 = true ∧
      vhered (mdirty t p).1 = true ∧
      (mdirty t p).1.vol = t.vol ∧
      ((mdirty t p).2 = true →
        (mdirty t p).1.dirty = true ∧ (mdirty t p).1.vol = false) ∧
      ((mdirty t p).2 = false → hasDNV (mdirty t p).1 = hasDNV t) := by
  intro p
  induction p with
  | nil =>
    intro t hv hd
    obtain ⟨d, v, cs⟩ := t
    by_cases hdv : (d || v) = true
    · have hstep : mdirty (DTree.node d v cs) [] = (DTree.node d v cs, false) := by
        simp [mdirty, dstep, DTree.dirty, DTree.vol, DTree.cs, hdv]
      rw [hstep]
      exact ⟨hd, hv, rfl, fun h => by simp at h, fun _ => rfl⟩
    · simp only [Bool.or_eq_true, not_or, Bool.not_eq_true] at hdv
      obtain ⟨rfl, rfl⟩ := hdv
      have hdd0 : hasDNVL cs = false ∧ dinvL cs = true := by
        simpa [dinv, Bool.and_eq_true] using hd
      have hstep : mdirty (DTree.node false false cs) [] =
          (DTree.node true false cs, true) := by
        simp [mdirty, dstep, DTree.dirty, DTree.vol, DTree.cs]
      rw [hstep]
      refine ⟨?_, ?_, rfl, fun _ => ⟨rfl, rfl⟩, fun h => by simp at h⟩
      · simp [dinv, hdd0.2]
      · simpa [vhered] using hv
  | cons i p ih =>
    intro t hv hd
    obtain ⟨d, v, cs⟩ := t
    rcases hc : cs.get? i with _ | c
    · have hc2 : cs[i]? = none := by rw [← List.get?_eq_getElem?]; exact hc
      have hstep : mdirty (DTree.node d v cs) (i :: p) =
          (DTree.node d v cs, false) := by
        simp [mdirty, DTree.cs, hc2]
      rw [hstep]
      exact ⟨hd, hv, rfl, fun h => by simp at h, fun _ => rfl⟩
    · have hc2 : cs[i]? = some c := by rw [← List.get?_eq_getElem?]; exact hc
      have hmem : c ∈ cs := List.get?_mem hc
      have hvh : vheredL v cs = true := by simpa [vhered] using hv
      have hvc := vheredL_of_mem v cs c hvh hmem
      have hdd : (!hasDNVL cs || d) = true ∧ dinvL cs = true := by
        simpa [dinv, Bool.and_eq_true] using hd
      have hdc : dinv c = true := dinvL_of_mem cs c hdd.2 hmem
      have IH := ih c hvc.1 hdc
      rcases hr : (mdirty c p).2 with _ | _
      · -- the climb stopped inside the child
        have hsame : hasDNV (mdirty c p).1 = hasDNV c := IH.2.2.2.2 hr
        have hstep : mdirty (DTree.node d v cs) (i :: p) =
            (DTree.node d v (cs.set i (mdirty c p).1), false) := by
          simp [mdirty, DTree.dirty, DTree.vol, DTree.cs, hc2, hr]
        rw [hstep]
        refine ⟨?_, ?_, rfl, fun h => by simp at h, fun _ => ?_⟩
        · simp only [dinv, Bool.and_eq_true]
          rw [hasDNVL_set_congr cs i c _ hc hsame]
          exact ⟨hdd.1, dinvL_set cs i _ hdd.2 IH.1⟩
        · simp only [vhered]
          exact vheredL_set v cs i c _ hc hvh IH.2.1 IH.2.2.1
        · simp only [hasDNV, DTree.dirty, DTree.vol]
          rw [hasDNVL_set_congr cs i c _ hc hsame]
      · -- the climb reaches this key
        have hcd := IH.2.2.2.1 hr
        have hcvol : c.vol = false := IH.2.2.1 ▸ hcd.2
        have hsetdnv : hasDNV (mdirty c p).1 = true := by
          rcases hm : (mdirty c p).1 with ⟨dx, vx, csx⟩
          rw [hm] at hcd
          simp only [DTree.dirty, DTree.vol] at hcd
          simp [hasDNV, hcd.1, hcd.2]
        -- the key itself cannot be volatile, since its child is non-volatile
        have hvf : v = false := by
          rcases Bool.eq_false_or_eq_true v with hvt | hvf
          · exfalso
            have := hvc.2 hvt
            rw [hcvol] at this
            simp at this
          · exact hvf
        subst hvf
        rcases hdt : d with _ | _
        · -- clean so far: mark this key and keep climbing
          have hstep : mdirty (DTree.node false false cs) (i :: p) =
              (DTree.node true false (cs.set i (mdirty c p).1), true) := by
            simp [mdirty, dstep, DTree.dirty, DTree.vol, DTree.cs, hc2, hr]
          rw [hstep]
          refine ⟨?_, ?_, rfl, fun _ => ⟨rfl, rfl⟩, fun h => by simp at h⟩
          · simp only [dinv, Bool.and_eq_true]
            exact ⟨by simp, dinvL_set cs i _ hdd.2 IH.1⟩
          · simp only [vhered]
            exact vheredL_set false cs i c _ hc hvh IH.2.1 IH.2.2.1
        · -- already dirty: the climb stops here without marking
          have hstep : mdirty (DTree.node true false cs) (i :: p) =
              (DTree.node true false (cs.set i (mdirty c p).1), false) := by
            simp [mdirty, dstep, DTree.dirty, DTree.vol, DTree.cs, hc2, hr]
          rw [hstep]
          refine ⟨?_, ?_, rfl, fun h => by simp at h, fun _ => ?_⟩
          · simp only [dinv, Bool.and_eq_true]
            exact ⟨by simp, dinvL_set cs i _ hdd.2 IH.1⟩
          · simp only [vhered]
            exact vheredL_set false cs i c _ hc hvh IH.2.1 IH.2.2.1
          · simp [hasDNV, DTree.dirty, DTree.vol]

theorem mcleanL_eq : ∀ cs : List DTree, mcleanL cs = cs.map mclean := by
  intro cs
  induction cs with
  | nil => simp [mcleanL]
  | cons x xs ih => simp [mcleanL, ih]

/-- `make_clean` empties a subtree of dirty non-volatile keys and preserves
both invariants. -/
theorem mclean_preserves :
    ∀ t : DTree, vhered t = true → dinv t = true →
      hasDNV (mclean t) = false ∧ dinv (mclean t) = true ∧
      vhered (mclean t) = true ∧ (mclean t).vol = t.vol := by
  intro t
  induction t using DTree.indOn with
  | _ d v cs ih =>
    intro hv hd
    have hvh : vheredL v cs = true := by simpa [vhered] using hv
    have hdd : (!hasDNVL cs || d) = true ∧ dinvL cs = true := by
      simpa [dinv, Bool.and_eq_true] using hd
    rcases hvol : v with _ | _
    · subst hvol
      rcases hdirty : d with _ | _
      · -- clean non-volatile key: nothing below is dirty, unchanged
        subst hdirty
        have hnone : hasDNVL cs = false := by simpa using hdd.1
        have hstep : mclean (DTree.node false false cs) =
            DTree.node false false cs := by
          simp [mclean]
        rw [hstep]
        refine ⟨?_, hd, hv, rfl⟩
        simp [hasDNV, hnone]
      · -- dirty non-volatile key: clear and recurse into all children
        subst hdirty
        have hstep : mclean (DTree.node true false cs) =
            DTree.node false false (mcleanL cs) := by
          simp [mclean]
        rw [hstep, mcleanL_eq]
        have hkids : ∀ c ∈ cs, hasDNV (mclean c) = false ∧ dinv (mclean c) = true ∧
            vhered (mclean c) = true ∧ (mclean c).vol = c.vol := fun c hcm =>
          ih c hcm (vheredL_of_mem false cs c hvh hcm).1 (dinvL_of_mem cs c hdd.2 hcm)
        have hnone : hasDNVL (cs.map mclean) = false :=
          hasDNVL_all _ fun x hx => by
            obtain ⟨c, hcm, rfl⟩ := List.mem_map.mp hx
            exact (hkids c hcm).1
        refine ⟨?_, ?_, ?_, rfl⟩
        · simp [hasDNV, hnone]
        · simp only [dinv, Bool.and_eq_true, hnone]
          refine ⟨by simp, dinvL_all _ fun x hx => ?_⟩
          obtain ⟨c, hcm, rfl⟩ := List.mem_map.mp hx
          exact (hkids c hcm).2.1
        · simp only [vhered]
          exact vheredL_all false _ fun x hx => by
            obtain ⟨c, hcm, rfl⟩ := List.mem_map.mp hx
            exact ⟨by simp, (hkids c hcm).2.2.1⟩
    · -- volatile key: untouched, and contains nothing dirty non-volatile
      subst hvol
      have hstep : mclean (DTree.node d true cs) = DTree.node d true cs := by
        simp [mclean]
      rw [hstep]
      refine ⟨?_, hd, hv, rfl⟩
      exact vol_no_dnv (DTree.node d true cs) hv rfl

/-! Commutation of the tree operations with the dirty/volatile projection. -/

theorem dprojL_eq : ∀ l : List Key, dprojL l = l.map dproj := by
  intro l
  induction l with
  | nil => simp [dprojL]
  | cons k ks ih => simp [dprojL, ih]

theorem make_dirty_step_dstep (fl : KFlags) :
    (make_dirty_step fl).1.dirty = (dstep fl.dirty fl.vol).1 ∧
    (make_dirty_step fl).1.vol = fl.vol ∧
    (make_dirty_step fl).2 = (dstep fl.dirty fl.vol).2 := by
  by_cases h : (fl.dirty || fl.vol) = true <;>
    simp [make_dirty_step, dstep, h]

theorem dproj_set_modif :
    ∀ (p : List Nat) (t : Key) (now : Nat),
      dproj (set_modif_at t p now) = dproj t := by
  intro p
  induction p with
  | nil =>
    intro t now
    obtain ⟨nm, fl, md, vl, nt, s⟩ := t
    simp [set_modif_at, dproj, Key.name, Key.flags, Key.modif, Key.values, Key.notifies, Key.subkeys]
  | cons i p ih =>
    intro t now
    obtain ⟨nm, fl, md, vl, nt, s⟩ := t
    simp only [set_modif_at, Key.subkeys]
    rcases hc : s.get? i with _ | c
    · rfl
    · simp only [dproj]
      congr 1
      rw [dprojL_eq, dprojL_eq, list_map_set dproj, ih c now]
      exact List.set_same _ _ _ (by rw [list_get_q_map, hc]; rfl)

theorem dproj_notify_walk :
    ∀ (p : List Nat) (t : Key) (c : Nat),
      dproj (notify_walk t p c) = dproj t := by
  intro p
  induction p with
  | nil =>
    intro t c
    obtain ⟨nm, fl, md, vl, nt, s⟩ := t
    simp [notify_walk, dproj, Key.name, Key.flags, Key.modif, Key.values, Key.notifies, Key.subkeys]
  | cons i p ih =>
    intro t c
    obtain ⟨nm, fl, md, vl, nt, s⟩ := t
    simp only [notify_walk, Key.subkeys]
    rcases hc : s.get? i with _ | c0
    · rfl
    · simp only [dproj]
      congr 1
      rw [dprojL_eq, dprojL_eq, list_map_set dproj, ih c0 c]
      exact List.set_same _ _ _ (by rw [list_get_q_map, hc]; rfl)

theorem dproj_make_dirty :
    ∀ (p : List Nat) (t : Key),
      dproj (make_dirty_at t p).1 = (mdirty (dproj t) p).1 ∧
      (make_dirty_at t p).2 = (mdirty (dproj t) p).2 := by
  intro p
  induction p with
  | nil =>
    intro t
    obtain ⟨nm, fl, md, vl, nt, s⟩ := t
    have hproj : dproj (Key.mk nm fl md vl nt s) =
        DTree.node fl.dirty fl.vol (s.map dproj) := by
      simp [dproj, dprojL_eq]
    have hms := make_dirty_step_dstep fl
    rw [hproj]
    have h1 : make_dirty_at (Key.mk nm fl md vl nt s) [] =
        (Key.mk nm (make_dirty_step fl).1 md vl nt s, (make_dirty_step fl).2) := by
      simp [make_dirty_at, Key.flags, Key.name, Key.modif, Key.values,
        Key.notifies, Key.subkeys]
    have h2 : mdirty (DTree.node fl.dirty fl.vol (s.map dproj)) [] =
        (DTree.node (dstep fl.dirty fl.vol).1 fl.vol (s.map dproj),
         (dstep fl.dirty fl.vol).2) := by
      simp [mdirty, DTree.dirty, DTree.vol, DTree.cs]
    rw [h1, h2]
    refine ⟨?_, hms.2.2⟩
    simp [dproj, dprojL_eq, hms.1, hms.2.1]
  | cons i p ih =>
    intro t
    obtain ⟨nm, fl, md, vl, nt, s⟩ := t
    have hproj : dproj (Key.mk nm fl md vl nt s) =
        DTree.node fl.dirty fl.vol (s.map dproj) := by
      simp [dproj, dprojL_eq]
    rw [hproj]
    rcases hc : s.get? i with _ | c
    · have hc2 : s[i]? = none := by rw [← List.get?_eq_getElem?]; exact hc
      have hcm : (s.map dproj)[i]? = none := by
        rw [← List.get?_eq_getElem?, list_get_q_map, hc]; rfl
      have h1 : make_dirty_at (Key.mk nm fl md vl nt s) (i :: p) =
          (Key.mk nm fl md vl nt s, false) := by
        simp [make_dirty_at, Key.subkeys, hc2]
      have h2 : mdirty (DTree.node fl.dirty fl.vol (s.map dproj)) (i :: p) =
          (DTree.node fl.dirty fl.vol (s.map dproj), false) := by
        simp [mdirty, DTree.cs, hcm]
      rw [h1, h2]
      exact ⟨hproj, rfl⟩
    · have hc2 : s[i]? = some c := by rw [← List.get?_eq_getElem?]; exact hc
      have hcm : (s.map dproj)[i]? = some (dproj c) := by
        rw [← List.get?_eq_getElem?, list_get_q_map, hc]; rfl
      have IH := ih c
      have hrd : (mdirty (dproj c) p).2 = (make_dirty_at c p).2 := IH.2.symm
      rcases hr : (make_dirty_at c p).2 with _ | _
      · have hrd2 : (mdirty (dproj c) p).2 = false := by rw [hrd, hr]
        have h1 : make_dirty_at (Key.mk nm fl md vl nt s) (i :: p) =
            (Key.mk nm fl md vl nt (s.set i (make_dirty_at c p).1), false) := by
          simp [make_dirty_at, Key.name, Key.flags, Key.modif, Key.values, Key.notifies, Key.subkeys, hc2, hr]
        have h2 : mdirty (DTree.node fl.dirty fl.vol (s.map dproj)) (i :: p) =
            (DTree.node fl.dirty fl.vol
              ((s.map dproj).set i (mdirty (dproj c) p).1), false) := by
          simp [mdirty, DTree.dirty, DTree.vol, DTree.cs, hcm, hrd2]
        rw [h1, h2]
        refine ⟨?_, rfl⟩
        simp [dproj, dprojL_eq, list_map_set, IH.1]
      · have hrd2 : (mdirty (dproj c) p).2 = true := by rw [hrd, hr]
        have hms := make_dirty_step_dstep fl
        have h1 : make_dirty_at (Key.mk nm fl md vl nt s) (i :: p) =
            (Key.mk nm (make_dirty_step fl).1 md vl nt
              (s.set i (make_dirty_at c p).1), (make_dirty_step fl).2) := by
          simp [make_dirty_at, Key.flags, Key.name, Key.modif, Key.values,
            Key.notifies, Key.subkeys, hc2, hr]

        have h2 : mdirty (DTree.node fl.dirty fl.vol (s.map dproj)) (i :: p) =
            (DTree.node (dstep fl.dirty fl.vol).1 fl.vol
              ((s.map dproj).set i (mdirty (dproj c) p).1),
             (dstep fl.dirty fl.vol).2) := by
          simp [mdirty, DTree.dirty, DTree.vol, DTree.cs, hcm, hrd2]
        rw [h1, h2]
        refine ⟨?_, hms.2.2⟩
        simp [dproj, dprojL_eq, list_map_set, IH.1, hms.1, hms.2.1]

theorem makeCleanL_eq : ∀ l : List Key, makeCleanL l = l.map makeClean := by
  intro l
  induction l with
  | nil => simp [makeCleanL]
  | cons k ks ih => simp [makeCleanL, ih]

theorem dproj_makeClean : ∀ k : Key, dproj (makeClean k) = mclean (dproj k) := by
  intro k
  induction k using Key.indOn with
  | _ nm fl md vl nt s ih =>
    have hproj : dproj (Key.mk nm fl md vl nt s) =
        DTree.node fl.dirty fl.vol (s.map dproj) := by
      simp [dproj, dprojL_eq]
    rcases hv : fl.vol with _ | _
    · rcases hd : fl.dirty with _ | _
      · have h1 : makeClean (Key.mk nm fl md vl nt s) = Key.mk nm fl md vl nt s := by
          simp [makeClean, hv, hd]
        have h2 : mclean (DTree.node false false (s.map dproj)) =
            DTree.node false false (s.map dproj) := by
          simp [mclean]
        rw [h1, hproj, hv, hd, h2]
      · have h1 : makeClean (Key.mk nm fl md vl nt s) =
            Key.mk nm { fl with dirty := false } md vl nt (makeCleanL s) := by
          simp [makeClean, hv, hd]
        have h2 : mclean (DTree.node true false (s.map dproj)) =
            DTree.node false false (mcleanL (s.map dproj)) := by
          simp [mclean]
        rw [h1, hproj, hv, hd, h2, mcleanL_eq, makeCleanL_eq]
        simp only [dproj, dprojL_eq, hv]
        congr 1
        rw [List.map_map, List.map_map]
        exact List.map_congr_left fun c hc => ih c hc
    · have h1 : makeClean (Key.mk nm fl md vl nt s) = Key.mk nm fl md vl nt s := by
        simp [makeClean, hv]
      have h2 : mclean (DTree.node fl.dirty true (s.map dproj)) =
          DTree.node fl.dirty true (s.map dproj) := by
        simp [mclean]
      rw [h1, hproj, hv, h2]

theorem dproj_make_clean_at :
    ∀ (q : List Nat) (t : Key),
      dproj (make_clean_at t q) = mclean_at (dproj t) q := by
  intro q
  induction q with
  | nil =>
    intro t
    simp only [make_clean_at, mclean_at]
    exact dproj_makeClean t
  | cons i q ih =>
    intro t
    obtain ⟨nm, fl, md, vl, nt, s⟩ := t
    have hproj : dproj (Key.mk nm fl md vl nt s) =
        DTree.node fl.dirty fl.vol (s.map dproj) := by
      simp [dproj, dprojL_eq]
    rw [hproj]
    rcases hc : s.get? i with _ | c
    · have hc2 : s[i]? = none := by rw [← List.get?_eq_getElem?]; exact hc
      have hcm : (s.map dproj)[i]? = none := by
        rw [← List.get?_eq_getElem?, list_get_q_map, hc]; rfl
      have h1 : make_clean_at (Key.mk nm fl md vl nt s) (i :: q) =
          Key.mk nm fl md vl nt s := by
        simp [make_clean_at, Key.subkeys, hc2]
      have h2 : mclean_at (DTree.node fl.dirty fl.vol (s.map dproj)) (i :: q) =
          DTree.node fl.dirty fl.vol (s.map dproj) := by
        simp [mclean_at, DTree.cs, hcm]
      rw [h1, h2, hproj]
    · have hc2 : s[i]? = some c := by rw [← List.get?_eq_getElem?]; exact hc
      have hcm : (s.map dproj)[i]? = some (dproj c) := by
        rw [← List.get?_eq_getElem?, list_get_q_map, hc]; rfl
      have h1 : make_clean_at (Key.mk nm fl md vl nt s) (i :: q) =
          Key.mk nm fl md vl nt (s.set i (make_clean_at c q)) := by
        simp [make_clean_at, Key.name, Key.flags, Key.modif, Key.values, Key.notifies, Key.subkeys, hc2]
      have h2 : mclean_at (DTree.node fl.dirty fl.vol (s.map dproj)) (i :: q) =
          DTree.node fl.dirty fl.vol
            ((s.map dproj).set i (mclean_at (dproj c) q)) := by
        simp [mclean_at, DTree.dirty, DTree.vol, DTree.cs, hcm]
      rw [h1, h2]
      simp [dproj, dprojL_eq, list_map_set, ih c]

/-- `make_clean` applied at a path preserves both invariants and cannot
introduce dirty non-volatile keys. -/
theorem mclean_at_preserves :
    ∀ (q : List Nat) (t : DTree), vhered t = true → dinv t = true →
      dinv (mclean_at t q) = true ∧ vhered (mclean_at t q) = true ∧
      (hasDNV (mclean_at t q) = true → hasDNV t = true) ∧
      (mclean_at t q).vol = t.vol := by
  intro q
  induction q with
  | nil =>
    intro t hv hd
    have h := mclean_preserves t hv hd
    simp only [mclean_at]
    refine ⟨h.2.1, h.2.2.1, fun hx => ?_, h.2.2.2⟩
    rw [h.1] at hx
    simp at hx
  | cons i q ih =>
    intro t hv hd
    obtain ⟨d, v, cs⟩ := t
    simp only [mclean_at, DTree.cs]
    rcases hc : cs.get? i with _ | c
    · exact ⟨hd, hv, fun h => h, rfl⟩
    · have hmem : c ∈ cs := List.get?_mem hc
      have hvh : vheredL v cs = true := by simpa [vhered] using hv
      have hvc := vheredL_of_mem v cs c hvh hmem
      have hdd : (!hasDNVL cs || d) = true ∧ dinvL cs = true := by
        simpa [dinv, Bool.and_eq_true] using hd
      have hdc : dinv c = true := dinvL_of_mem cs c hdd.2 hmem
      have IH := ih c hvc.1 hdc
      refine ⟨?_, ?_, ?_, rfl⟩
      · simp only [dinv, Bool.and_eq_true]
        refine ⟨?_, dinvL_set cs i _ hdd.2 IH.1⟩
        rcases Bool.eq_false_or_eq_true (hasDNVL (cs.set i (mclean_at c q)))
          with h | h
        · rcases hasDNVL_set_imp cs i _ h with hx | hx
          · have h2 := hasDNVL_of_get cs i c hc (IH.2.2.1 hx)
            rw [h2] at hdd
            have hdt := hdd.1
            simp only [Bool.not_true, Bool.false_or] at hdt
            simp [DTree.dirty, hdt]
          · rw [hx] at hdd
            have hdt := hdd.1
            simp only [Bool.not_true, Bool.false_or] at hdt
            simp [DTree.dirty, hdt]
        · simp [h]
      · simp only [vhered]
        exact vheredL_set v cs i c _ hc hvh IH.2.1 IH.2.2.2
      · intro h
        simp only [hasDNV, DTree.dirty, DTree.vol, Bool.or_eq_true] at h ⊢
        rcases h with h | h
        · exact Or.inl h
        · rcases hasDNVL_set_imp cs i _ h with hx | hx
          · exact Or.inr (hasDNVL_of_get cs i c hc (IH.2.2.1 hx))
          · exact Or.inr hx

/-- A dirty non-volatile key makes its whole subtree register in `hasDNV`. -/
theorem hasDNV_of_dnodeAt :
    ∀ (r : List Nat) (t x : DTree), dnodeAt t r = some x →
      x.dirty = true → x.vol = false → hasDNV t = true := by
  intro r
  induction r with
  | nil =>
    intro t x h hd hv
    simp only [dnodeAt, Option.some.injEq] at h
    subst h
    obtain ⟨d, v, cs⟩ := t
    simp only [DTree.dirty] at hd
    simp only [DTree.vol] at hv
    simp [hasDNV, hd, hv]
  | cons i r ih =>
    intro t x h hd hv
    obtain ⟨d, v, cs⟩ := t
    simp only [dnodeAt, DTree.cs] at h
    rcases hc : cs.get? i with _ | c
    · rw [hc] at h; simp at h
    · rw [hc] at h
      have := ih c x h hd hv
      simp [hasDNV, hasDNVL_of_get cs i c hc this]

/-- The invariant `dinv`, read the way the claim states it: every ancestor
on the parent chain of a dirty non-volatile key is itself dirty. -/
theorem dinv_ancestors :
    ∀ (r : List Nat) (t : DTree), dinv t = true →
      ∀ x, dnodeAt t r = some x → x.dirty = true → x.vol = false →
        ∀ j, j < r.length →
          ∃ a, dnodeAt t (r.take j) = some a ∧ a.dirty = true := by
  intro r
  induction r with
  | nil => intro t _ x _ _ _ j hj; exact absurd hj (by simp)
  | cons i r ih =>
    intro t hinv x h hd hv j hj
    obtain ⟨d, v, cs⟩ := t
    simp only [dnodeAt, DTree.cs] at h
    rcases hc : cs.get? i with _ | c
    · rw [hc] at h; simp at h
    · rw [hc] at h
      have hdd : (!hasDNVL cs || d) = true ∧ dinvL cs = true := by
        simpa [dinv, Bool.and_eq_true] using hinv
      cases j with
      | zero =>
        refine ⟨DTree.node d v cs, by simp [dnodeAt], ?_⟩
        have hdnv := hasDNV_of_dnodeAt r c x h hd hv
        have hlist := hasDNVL_of_get cs i c hc hdnv
        rw [hlist] at hdd
        have := hdd.1
        simp only [Bool.not_true, Bool.false_or] at this
        simpa [DTree.dirty] using this
      | succ j =>
        have hdc : dinv c = true := dinvL_of_mem cs c hdd.2 (List.get?_mem hc)
        obtain ⟨a, ha, hda⟩ := ih c hdc x h hd hv j (by simpa using hj)
        refine ⟨a, ?_, hda⟩
        simp only [List.take_succ_cons, dnodeAt, DTree.cs]
        rw [hc]
        exact ha

/-- C3: after any sequence of operations, the dirty-propagation invariant —
at every key, a dirty non-volatile key anywhere below forces the key's own
`KEY_DIRTY` bit, so every ancestor of a dirty non-volatile key is dirty
(`dinv_ancestors` spells out that reading) — together with hereditary
volatility (which `create_key` enforces via `CHILD_MUST_BE_VOLATILE`) is
preserved both by marking a key dirty (`touch_key`, whose climb is
`make_dirty`) and by cleaning a saved branch (`make_clean`, run by
`save_branch` on the whole subtree). -/
theorem C3_dirty_invariant (t : Key) (p q : List Nat) (c now : Nat)
    (hv : volHered t = true) (hd : dirtyInv t = true) :
    (dirtyInv (touch_key_at t p c now) = true ∧
     volHered (touch_key_at t p c now) = true) ∧
    (dirtyInv (make_clean_at t q) = true ∧
     volHered (make_clean_at t q) = true) := by
  simp only [dirtyInv, volHered] at hv hd ⊢
  constructor
  · have h1 : dproj (touch_key_at t p c now) = (mdirty (dproj t) p).1 := by
      rw [touch_key_at, dproj_notify_walk, (dproj_make_dirty p _).1,
        dproj_set_modif]
    rw [h1]
    have h := mdirty_preserves p (dproj t) hv hd
    exact ⟨h.1, h.2.1⟩
  · rw [dproj_make_clean_at]
    have h := mclean_at_preserves q (dproj t) hv hd
    exact ⟨h.1, h.2.1⟩

/-- C3, instantiation: a two-key tree (clean non-volatile parent and child),
touched at the child and cleaned at the root. -/
theorem C3_dirty_invariant_witness :
    (volHered (Key.mk [] ⟨false, false, false, false, false, false⟩ 0 [] []
        [Key.mk [0x61] ⟨false, false, false, false, false, false⟩ 0 [] [] []])
      = true) ∧
    (dirtyInv (Key.mk [] ⟨false, false, false, false, false, false⟩ 0 [] []
        [Key.mk [0x61] ⟨false, false, false, false, false, false⟩ 0 [] [] []])
      = true) ∧
    (dirtyInv (touch_key_at
        (Key.mk [] ⟨false, false, false, false, false, false⟩ 0 [] []
          [Key.mk [0x61] ⟨false, false, false, false, false, false⟩ 0 [] [] []])
        [0] REG_NOTIFY_CHANGE_LAST_SET 5) = true ∧
      volHered (touch_key_at
        (Key.mk [] ⟨false, false, false, false, false, false⟩ 0 [] []
          [Key.mk [0x61] ⟨false, false, false, false, false, false⟩ 0 [] [] []])
        [0] REG_NOTIFY_CHANGE_LAST_SET 5) = true) ∧
    (dirtyInv (make_clean_at
        (Key.mk [] ⟨false, false, false, false, false, false⟩ 0 [] []
          [Key.mk [0x61] ⟨false, false, false, false, false, false⟩ 0 [] [] []])
        []) = true ∧
      volHered (make_clean_at
        (Key.mk [] ⟨false, false, false, false, false, false⟩ 0 [] []
          [Key.mk [0x61] ⟨false, false, false, false, false, false⟩ 0 [] [] []])
        []) = true) :=
  ⟨by simp [volHered, vhered, vheredL, dproj, dprojL],
   by simp [dirtyInv, dinv, dinvL, hasDNV, hasDNVL, dproj, dprojL],
   C3_dirty_invariant _ [0] [] REG_NOTIFY_CHANGE_LAST_SET 5
     (by simp [volHered, vhered, vheredL, dproj, dprojL])
     (by simp [dirtyInv, dinv, dinvL, hasDNV, hasDNVL, dproj, dprojL])⟩

/-! ## C8: the `created` reply flag of `create_key` -/

theorem find_subkey_found (s : List Key) (n : List Nat) (c : Key)
    (hs : subkeysSorted s) (hmem : c ∈ s) (hname : wnorm c.name = wnorm n) :
    ∃ i, (find_subkey s n).1 = some i := by
  obtain ⟨iv, hiv⟩ := List.get?_of_mem hmem
  have hivlen : iv < s.length := (List.get?_eq_some.mp hiv).1
  have hlenmap : (s.map Key.name).length = s.length := List.length_map _ _
  have hnm : nameAt (s.map Key.name) iv = c.name := by
    rw [nameAt, list_get_q_map, hiv]
    rfl
  have heq : name_cmp (nameAt (s.map Key.name) iv) n = 0 := by
    rw [hnm]
    exact (name_cmp_eq_zero_iff _ _).mpr hname
  have hfound := bsearch_finds (s.map Key.name) n hs
    (s.length + 1) 0 ((s.length : Int) - 1) iv
    (by omega) (by rw [hlenmap]; omega) (Nat.zero_le _) (by omega) heq
  exact ⟨iv, by simp [find_subkey, hfound]⟩

theorem find_subkey_none (s : List Key) (n : List Nat)
    (hall : ∀ c ∈ s, wnorm c.name ≠ wnorm n) :
    (find_subkey s n).1 = none := by
  have hmiss := bsearch_misses (s.map Key.name) n
    (s.length + 1) 0 ((s.length : Int) - 1)
    (by omega) (by rw [List.length_map]; omega)
    (fun j hj => by
      rw [List.length_map] at hj
      rcases hg : s.get? j with _ | c
      · exfalso
        rw [List.get?_eq_none] at hg
        omega
      · have hcn : nameAt (s.map Key.name) j = c.name := by
          rw [nameAt, list_get_q_map, hg]
          rfl
        rw [hcn]
        intro hzero
        exact hall c (List.get?_mem hg) ((name_cmp_eq_zero_iff _ _).mp hzero))
  simp [find_subkey, hmiss]

/-- C8 (amended): the reply's `created` field is 1 exactly when the call
ends with the error slot at `STATUS_SUCCESS` — that is, when a fresh key
was created, or when the path was EMPTY and the pre-existing parent key
itself was returned — and 0 exactly when a non-empty path matched a
pre-existing key (error slot `OBJECT_NAME_EXISTS`).  The claim's reading
of the empty-path case is inverted: the empty path returns the parent key
with `created = 1`, not 0.  The last two conjuncts settle the semantic
outcomes on a sorted subkey array: a present name yields `existing`
(hence `created = 0`), an absent one yields a freshly inserted
`fresh_key` (hence `created = 1`). -/
theorem C8_created_flag (k : Key) (name cls tok : List Nat) (options now : Nat) :
    ((create_key_reply k name cls options now).2 = some true ↔
      ((create_key_m k name cls options now).2 = CreateOutcome.fresh ∨
       (create_key_m k name cls options now).2 = CreateOutcome.parentItself)) ∧
    ((create_key_reply k name cls options now).2 = some false ↔
      (create_key_m k name cls options now).2 = CreateOutcome.existing) ∧
    (create_key_m k [] cls options now = (k, CreateOutcome.parentItself)) ∧
    (subkeysSorted k.subkeys →
      (∃ c ∈ k.subkeys, wnorm c.name = wnorm tok) →
      tok.length ≤ MAX_NAME_LEN →
      create_walk k [tok] cls options now true = (k, CreateOutcome.existing)) ∧
    (subkeysSorted k.subkeys →
      (∀ c ∈ k.subkeys, wnorm c.name ≠ wnorm tok) →
      tok.length ≤ MAX_NAME_LEN →
      ¬(k.flags.vol = true ∧ options &&& REG_OPTION_VOLATILE = 0) →
      ∃ ins, create_walk k [tok] cls options now true =
        (Key.mk k.name k.flags k.modif k.values k.notifies
          (k.subkeys.insertIdx ins (fresh_key tok cls options now)),
         CreateOutcome.fresh)) := by
  refine ⟨?_, ?_, ?_, ?_, ?_⟩
  · rcases h : (create_key_m k name cls options now).2 <;>
      simp [create_key_reply, h]
  · rcases h : (create_key_m k name cls options now).2 <;>
      simp [create_key_reply, h]
  · simp [create_key_m]
  · intro hs hex hlen
    obtain ⟨c, hcm, hw⟩ := hex
    obtain ⟨i, hi⟩ := find_subkey_found k.subkeys tok c hs hcm hw
    rcases hfs : find_subkey k.subkeys tok with ⟨o, ins⟩
    rw [hfs] at hi
    simp only at hi
    subst hi
    simp [create_walk, hfs, Nat.not_lt.mpr hlen]
  · intro hs hall hlen hvol
    obtain hnone := find_subkey_none k.subkeys tok hall
    rcases hfs : find_subkey k.subkeys tok with ⟨o, ins⟩
    rw [hfs] at hnone
    simp only at hnone
    subst hnone
    refine ⟨ins, ?_⟩
    have hvol2 : (k.flags.vol && decide (options &&& REG_OPTION_VOLATILE = 0))
        = false := by
      rcases hv : k.flags.vol with _ | _
      · simp
      · simp only [Bool.true_and, decide_eq_false_iff_not]
        intro hopt
        exact hvol ⟨hv, hopt⟩
    simp [create_walk, hfs, Nat.not_lt.mpr hlen, hvol2]

/-- C8, counterexample: a `create_key` request with an EMPTY path returns
the pre-existing parent key itself with `created = 1` (the error slot is
`STATUS_SUCCESS` in the empty-name short cut, and the handler maps success
to `created = 1`), where the claim requires `created = 0` for a match of a
pre-existing key. -/
theorem C8_cex_empty_path_reports_created :
    create_key_reply (Key.mk [] ⟨false, false, false, false, false, false⟩ 0 [] [] [])
        [] [] 0 5 =
      (Key.mk [] ⟨false, false, false, false, false, false⟩ 0 [] [] [], some true) ∧
    (some true ≠ some false) := by
  exact ⟨rfl, by decide⟩

/-- C8, instantiation: existing child `a` matched case-insensitively by
token `A` (`created = 0` via `existing`), and a missing token `b` freshly
created. -/
theorem C8_created_flag_witness :
    (subkeysSorted (Key.mk [] ⟨false, false, false, false, false, false⟩ 0 [] []
        [Key.mk [0x61] ⟨false, false, false, false, false, false⟩ 0 [] [] []]).subkeys) ∧
    (∃ c ∈ (Key.mk [] ⟨false, false, false, false, false, false⟩ 0 [] []
        [Key.mk [0x61] ⟨false, false, false, false, false, false⟩ 0 [] [] []]).subkeys,
      wnorm c.name = wnorm [0x41]) ∧
    create_walk (Key.mk [] ⟨false, false, false, false, false, false⟩ 0 [] []
        [Key.mk [0x61] ⟨false, false, false, false, false, false⟩ 0 [] [] []])
      [[0x41]] [] 0 5 true =
      (Key.mk [] ⟨false, false, false, false, false, false⟩ 0 [] []
        [Key.mk [0x61] ⟨false, false, false, false, false, false⟩ 0 [] [] []],
       CreateOutcome.existing) :=
  ⟨by decide, by decide,
    (C8_created_flag
      (Key.mk [] ⟨false, false, false, false, false, false⟩ 0 [] []
        [Key.mk [0x61] ⟨false, false, false, false, false, false⟩ 0 [] [] []])
      [] [] [0x41] 0 5).2.2.2.1
      (by decide) (by decide) (by decide)⟩

end WineReg
